import Mathlib

/-!
PerlinNoiseGenerator: a shallow embedding of `main.cpp`.

The C++ `double` is modelled by an ordered field `α` with a floor function
(`ℚ` for evaluation, `ℝ` for the analytic statements), the C++ `int` by `Int`
with the 32-bit range checked at the float-to-int conversion, and the
`std::vector<int>` permutation table by `List Int` with checked indexing.
Arithmetic in the field is exact and unbounded; the definitions whose name ends
in `Double` observe in addition the range of `double` in the octave loop, where
the amplitude `persistence^i` can exceed it: a value beyond the largest finite
`double` is the fault `notFinite` (in the C++ code an infinity or NaN).
-/

/-- Ways in which an execution of the C++ code leaves defined behaviour. -/
inductive Fault where
  | intRange
  | outOfBounds
  | divByZero
  | notFinite
  deriving DecidableEq, Repr

/-- The result of `std::iota(p.begin(), p.end(), 0)` on a vector resized to 256. -/
def iota256 : List Int := (List.range 256).map Int.ofNat

/-- One `std::iter_swap` on the vector, exchanging positions `i` and `j`. -/
def swapAt (l : List Int) (i j : Nat) : List Int :=
  if h : i < l.length ∧ j < l.length then
    (l.set i (l.get ⟨j, h.2⟩)).set j (l.get ⟨i, h.1⟩)
  else l

/-- `std::shuffle`: the library permutes the vector by a sequence of swaps
drawn from the random engine; the sequence is a parameter of the model. -/
def shuffle (swaps : List (Nat × Nat)) (l : List Int) : List Int :=
  swaps.foldl (fun acc s => swapAt acc s.1 s.2) l

/-- The class `PerlinNoise`: its only data member is the permutation vector `p`. -/
structure PerlinNoise where
  p : List Int
  deriving DecidableEq, Repr

namespace PerlinNoise

/-- The constructor `PerlinNoise(unsigned int seed)`.  `engine seed` is the
sequence of swaps that `std::shuffle` performs when driven by
`std::default_random_engine(seed)`. -/
def construct (engine : Nat → List (Nat × Nat)) (seed : Nat) : PerlinNoise :=
  let p := shuffle (engine seed) iota256
  { p := p ++ p }

/-- The conversion `static_cast<int>(std::floor(x))` applied to the floor `z`:
defined only when `z` fits the 32-bit `int`. -/
def toInt (z : Int) : Except Fault Int :=
  if -2147483648 ≤ z ∧ z ≤ 2147483647 then .ok z else .error .intRange

/-- The vector access `p[k]` for an `int` index `k`: defined only inside the vector. -/
def index (self : PerlinNoise) (k : Int) : Except Fault Int :=
  if 0 ≤ k then
    match self.p[k.toNat]? with
    | some v => .ok v
    | none => .error .outOfBounds
  else .error .outOfBounds

variable {α : Type} [LinearOrderedField α]

/-- The method `fade`. -/
def fade (t : α) : α :=
  t * t * t * (t * (t * 6 - 15) + 10)

/-- The method `lerp`. -/
def lerp (t a b : α) : α :=
  a + t * (b - a)

/-- The method `grad`; `&` is the bitwise and of two's-complement integers. -/
def grad (hash : Int) (x y : α) : α :=
  let h := Int.land hash 7
  let u := if h < 4 then x else y
  let v := if h < 4 then y else x
  (if Int.land h 1 ≠ 0 then -u else u) + (if Int.land h 2 ≠ 0 then -2 * v else 2 * v)

variable [FloorRing α]

/-- The method `perlinNoise`; `%` on `int` is the truncating remainder `Int.tmod`. -/
def perlinNoise (self : PerlinNoise) (x y : α) : Except Fault α := do
  let xi0 := Int.tmod (← toInt ⌊x⌋) 256
  let xi1 := Int.tmod (xi0 + 1) 256
  let yi0 := Int.tmod (← toInt ⌊y⌋) 256
  let yi1 := Int.tmod (yi0 + 1) 256
  let tx := x - ⌊x⌋
  let ty := y - ⌊y⌋
  let u := fade tx
  let v := fade ty
  let a := grad (← self.index ((← self.index xi0) + yi0)) tx ty
  let b := grad (← self.index ((← self.index xi1) + yi0)) (tx - 1) ty
  let c := grad (← self.index ((← self.index xi0) + yi1)) tx (ty - 1)
  let d := grad (← self.index ((← self.index xi1) + yi1)) (tx - 1) (ty - 1)
  let x1 := lerp u a b
  let x2 := lerp u c d
  pure (lerp v x1 x2)

/-- The local variables of the loop in `perlinNoiseOctaves`. -/
structure OctaveState (α : Type) where
  total : α
  frequency : α
  amplitude : α
  max_value : α

/-- The state before the first iteration of the loop. -/
def octaveInit : OctaveState α :=
  { total := 0, frequency := 1, amplitude := 1, max_value := 0 }

/-- One iteration of the loop body of `perlinNoiseOctaves`. -/
def octaveStep (self : PerlinNoise) (x y persistence : α) (s : OctaveState α) :
    Except Fault (OctaveState α) := do
  let n ← self.perlinNoise (x * s.frequency) (y * s.frequency)
  pure { total := s.total + n * s.amplitude
         max_value := s.max_value + s.amplitude
         amplitude := s.amplitude * persistence
         frequency := s.frequency * 2 }

/-- The loop of `perlinNoiseOctaves` run for `k` iterations from state `s`. -/
def octaveLoop (self : PerlinNoise) (x y persistence : α) :
    Nat → OctaveState α → Except Fault (OctaveState α)
  | 0, s => pure s
  | k + 1, s => do
    let s1 ← octaveStep self x y persistence s
    octaveLoop self x y persistence k s1

/-- The method `perlinNoiseOctaves`.  The loop `for (int i = 0; i < octaves; ++i)`
runs `octaves.toNat` times; the final division is defined when its divisor is
not zero. -/
def perlinNoiseOctaves (self : PerlinNoise) (x y : α) (octaves : Int) (persistence : α) :
    Except Fault α := do
  let s ← octaveLoop self x y persistence octaves.toNat octaveInit
  if 2 * s.max_value = 0 then throw Fault.divByZero
  else pure ((s.total + s.max_value) / (2 * s.max_value))

end PerlinNoise

namespace PerlinNoise

section DoubleRange

variable {α : Type} [LinearOrderedField α]

/-- The largest finite `double`, `(2^53 - 1) * 2^971`. -/
def maxDouble : α :=
  (2 ^ 53 - 1) * 2 ^ 971

variable [FloorRing α]

end DoubleRange

end PerlinNoise

/-- The permutation invariant of the table: 512 entries, the first 256 a
permutation of `0..255`, and the second half a copy of the first. -/
def PermInvariant (t : List Int) : Prop :=
  t.length = 512 ∧ (t.take 256).Perm iota256 ∧ ∀ i, i < 256 → t[i]? = t[i + 256]?

instance (t : List Int) : Decidable (PermInvariant t) := by
  unfold PermInvariant; infer_instance


/-- The eight gradient directions of the specification, indexed by `k = hash mod 8`. -/
def gradDir {α : Type} [LinearOrderedField α] (k : Int) : α × α :=
  match k with
  | 0 => (1, 2)
  | 1 => (-1, 2)
  | 2 => (1, -2)
  | 3 => (-1, -2)
  | 4 => (2, 1)
  | 5 => (2, -1)
  | 6 => (-2, 1)
  | _ => (-2, -1)

namespace PerlinNoise

variable {α : Type} [LinearOrderedField α] [FloorRing α]

/-- The table entry at index `k`, read as `0` outside the vector. -/
def entry (self : PerlinNoise) (k : Int) : Int :=
  (self.p[k.toNat]?).getD 0

/-- The hash `p[p[i mod 256] + j mod 256]` of the lattice corner `(i, j)`. -/
def cornerHash (self : PerlinNoise) (i j : Int) : Int :=
  self.entry (self.entry (i % 256) + j % 256)

/-- The bilinear interpolation of the four corner gradients of the lattice
cell `(i, j)`, evaluated at the point `(x, y)`. -/
def cellValue (self : PerlinNoise) (i j : Int) (x y : α) : α :=
  lerp (fade (y - j))
    (lerp (fade (x - i)) (grad (self.cornerHash i j) (x - i) (y - j))
      (grad (self.cornerHash (i + 1) j) (x - i - 1) (y - j)))
    (lerp (fade (x - i)) (grad (self.cornerHash i (j + 1)) (x - i) (y - j - 1))
      (grad (self.cornerHash (i + 1) (j + 1)) (x - i - 1) (y - j - 1)))

/-- The value of the lattice cell that contains `(x, y)`: what `perlinNoise`
computes for `x, y ≥ 0` when the `int` holding the floor is taken unbounded. -/
def cellNoise (self : PerlinNoise) (x y : α) : α :=
  self.cellValue ⌊x⌋ ⌊y⌋ x y

/-- The value returned by `perlinNoise`, read as `0` when the call faults. -/
def noiseValue (self : PerlinNoise) (x y : α) : α :=
  match self.perlinNoise x y with
  | .ok v => v
  | .error _ => 0

end PerlinNoise

/-- A table the constructor builds when the shuffle performs the single swap of
positions 1 and 2: `0, 2, 1, 3, 4, ..., 255`, twice. -/
def swapTable : PerlinNoise :=
  PerlinNoise.construct (fun _ => [(1, 2)]) 1

/-- The part of the plane on which every step of `perlinNoise` is defined:
non-negative coordinates whose floor fits the 32-bit `int`. -/
def noiseDomain : Set (ℝ × ℝ) :=
  {q | 0 ≤ q.1 ∧ q.1 < 2147483648 ∧ 0 ≤ q.2 ∧ q.2 < 2147483648}

/-- The closed lattice cell `[i, i+1] × [j, j+1]`. -/
def closedCell (c : Int × Int) : Set (ℝ × ℝ) :=
  Set.Icc (c.1 : ℝ) (c.1 + 1) ×ˢ Set.Icc (c.2 : ℝ) (c.2 + 1)

/-- The seed-slider branch of `main`: the assignment `noise = PerlinNoise(seed)`
replaces the engine `noise` held before. -/
def reseed (engine : Nat → List (Nat × Nat)) (_noise : PerlinNoise) (seed : Nat) : PerlinNoise :=
  PerlinNoise.construct engine seed

/-- The class `sf::Color` of the graphics library: four 8-bit channels. -/
structure Color where
  r : Nat
  g : Nat
  b : Nat
  a : Nat
  deriving DecidableEq, Repr

/-- The implicit conversion of an `int` argument to the 8-bit channel type
`sf::Uint8`: reduction modulo 256. -/
def toUint8 (v : Int) : Nat :=
  (v % 256).toNat

/-- The colour `sf::Color(color_value, color_value, color_value)`; the fourth
constructor argument, alpha, has the library default 255. -/
def greyColor (color_value : Int) : Color :=
  { r := toUint8 color_value, g := toUint8 color_value, b := toUint8 color_value, a := 255 }

/-- The class `sf::Image` of the graphics library: its size and its pixels, stored
row by row. -/
structure Image where
  width : Nat
  height : Nat
  pixels : List Color
  deriving DecidableEq, Repr

namespace Image

/-- The library call `image.setPixel(x, y, color)`: it writes the pixel stored
at offset `x + y * width`, defined only inside the pixel storage. -/
def setPixel (image : Image) (x y : Nat) (color : Color) : Except Fault Image :=
  if x + y * image.width < image.pixels.length then
    .ok { image with pixels := image.pixels.set (x + y * image.width) color }
  else .error .outOfBounds

/-- The pixel stored for the position `(x, y)`, if any. -/
def pixelAt (image : Image) (x y : Nat) : Option Color :=
  image.pixels[x + y * image.width]?

/-- The class invariant of `sf::Image`: one stored pixel per grid position. -/
def WellFormed (image : Image) : Prop :=
  image.pixels.length = image.width * image.height

end Image

section Sampler

variable {α : Type} [LinearOrderedField α] [FloorRing α]

/-- The conversion `static_cast<int>(v)` of a `double`: truncation toward zero,
defined only when the truncated value fits the 32-bit `int`. -/
def truncToInt (v : α) : Except Fault Int :=
  PerlinNoise.toInt (if 0 ≤ v then ⌊v⌋ else ⌈v⌉)

/-- The body of the inner loop of `generateNoiseImage` for the pixel `(i, j)`. -/
def pixelStep (noise : PerlinNoise) (scale : α) (octaves : Int) (persistence : α)
    (i j : Nat) (image : Image) : Except Fault Image := do
  let x := (i : α) * scale
  let y := (j : α) * scale
  let value ← noise.perlinNoiseOctaves x y octaves persistence
  let color_value ← truncToInt (value * 255)
  image.setPixel i j (greyColor color_value)

/-- The function `generateNoiseImage`: the image is passed by reference and the
result is its final state.  Both loops run over `0, ..., size - 1`. -/
def generateNoiseImage (image : Image) (noise : PerlinNoise) (scale : α) (octaves : Int)
    (persistence : α) : Except Fault Image :=
  let width := image.width
  let height := image.height
  (List.range width).foldlM
    (fun img i => (List.range height).foldlM
      (fun img1 j => pixelStep noise scale octaves persistence i j img1) img)
    image

/-- The grey level that `generateNoiseImage` computes for the pixel `(i, j)`:
the integer colour value before its reduction to 8 bits. -/
def colorValue (noise : PerlinNoise) (scale : α) (octaves : Int) (persistence : α)
    (i j : Nat) : Except Fault Int := do
  let value ← noise.perlinNoiseOctaves ((i : α) * scale) ((j : α) * scale) octaves persistence
  truncToInt (value * 255)

/-- The pixels of a `width` by `height` grid in the order in which the two loops
of `generateNoiseImage` visit them. -/
def gridOrder (width height : Nat) : List (Nat × Nat) :=
  List.product (List.range width) (List.range height)

/-- The loop body of `generateNoiseImage` run over a list of pixel positions. -/
def writePixels (noise : PerlinNoise) (scale : α) (octaves : Int) (persistence : α)
    (positions : List (Nat × Nat)) (image : Image) : Except Fault Image :=
  positions.foldlM (fun img t => pixelStep noise scale octaves persistence t.1 t.2 img) image

end Sampler

/-- An image of the given size as `sf::Image::create` leaves it: every pixel black. -/
def blackImage (width height : Nat) : Image :=
  { width := width, height := height
    pixels := List.replicate (width * height) { r := 0, g := 0, b := 0, a := 255 } }

section SamplerDouble

variable {α : Type} [LinearOrderedField α] [FloorRing α]

end SamplerDouble

/-- The behaviours of the library pair `std::default_random_engine engine(seed)` and
`std::shuffle(..., engine)`: `lib seed swaps` says that, constructed from `seed`, the
shuffle may perform the sequence `swaps`. -/
def ShuffleBehaviour : Type :=
  Nat → List (Nat × Nat) → Prop

/-- The guarantee of the C++ standard for a fixed library implementation: the
swaps are determined by the seed. -/
def ShuffleBehaviour.Deterministic (lib : ShuffleBehaviour) : Prop :=
  ∀ seed s1 s2, lib seed s1 → lib seed s2 → s1 = s2

/-- The constructor `PerlinNoise(seed)` run against a library behaviour: the
engines it may build. -/
def PerlinNoise.Constructs (lib : ShuffleBehaviour) (seed : Nat) (noise : PerlinNoise) : Prop :=
  ∃ swaps, lib seed swaps ∧ noise = PerlinNoise.construct (fun _ => swaps) seed

/-- The variables of `main` that the seed slider assigns. -/
structure SeedState where
  seed : Nat
  noise : PerlinNoise

/-- The slider edits handled in the loop of `main`, with the new slider value. -/
inductive SliderEdit (α : Type) where
  | scale (scale_f : α)
  | octaves (octaves : Int)
  | persistence (persistence_f : α)
  | seed (seed_i : Int)

/-- The conversion `static_cast<unsigned int>(seed_i)`. -/
def toUnsigned (seed_i : Int) : Nat :=
  (seed_i % 4294967296).toNat

/-- The state of `main` before its loop: `seed = 1` and `PerlinNoise noise(seed)`. -/
def initialState (engine : Nat → List (Nat × Nat)) : SeedState :=
  { seed := 1, noise := PerlinNoise.construct engine 1 }

/-- One handled slider edit, on the variables `seed` and `noise`: only the seed
slider assigns them, the other three sliders regenerate the image only. -/
def handleEdit {α : Type} (engine : Nat → List (Nat × Nat)) (st : SeedState) :
    SliderEdit α → SeedState
  | .seed seed_i => { seed := toUnsigned seed_i, noise := reseed engine st.noise (toUnsigned seed_i) }
  | .scale _ => st
  | .octaves _ => st
  | .persistence _ => st

/-- The loop of `main` over a sequence of slider edits. -/
def runEdits {α : Type} (engine : Nat → List (Nat × Nat)) (st : SeedState)
    (edits : List (SliderEdit α)) : SeedState :=
  edits.foldl (handleEdit engine) st

/-! ## Theorems -/

section Table

theorem ite_le_count (l : List Int) (i : Nat) (h : i < l.length) (b : Int) :
    (if (l[i] == b) = true then 1 else 0) ≤ l.count b := by
  split
  · rename_i hb
    have hib : l[i] = b := by simpa using hb
    have hm : b ∈ l := hib ▸ List.getElem_mem h
    exact List.count_pos_iff.mpr hm
  · exact Nat.zero_le _

theorem swapAt_perm (l : List Int) (i j : Nat) : (swapAt l i j).Perm l := by
  unfold swapAt
  split
  · rename_i h
    rw [List.perm_iff_count]
    intro b
    have hj : j < (l.set i l[j]).length := by simpa using h.2
    have e1 := List.count_set (l.get ⟨i, h.1⟩) b (l.set i (l.get ⟨j, h.2⟩)) j hj
    have e2 := List.count_set (l.get ⟨j, h.2⟩) b l i h.1
    have e3 : (l.set i (l.get ⟨j, h.2⟩))[j] = l[j] := by
      rw [List.getElem_set]; split <;> simp
    have e4 := ite_le_count l i h.1 b
    rw [e3] at e1
    simp only [List.get_eq_getElem] at e1 e2 ⊢
    rw [e1, e2]
    omega
  · exact List.Perm.refl _

theorem shuffle_perm (swaps : List (Nat × Nat)) (l : List Int) : (shuffle swaps l).Perm l := by
  induction swaps generalizing l with
  | nil => exact List.Perm.refl _
  | cons s rest ih =>
    show (shuffle rest (swapAt l s.1 s.2)).Perm l
    exact (ih _).trans (swapAt_perm l s.1 s.2)

theorem iota256_length : iota256.length = 256 := by
  simp [iota256]

theorem mem_iota256 (v : Int) : v ∈ iota256 ↔ 0 ≤ v ∧ v ≤ 255 := by
  unfold iota256
  simp only [List.mem_map, List.mem_range]
  constructor
  · rintro ⟨a, ha, rfl⟩
    simp only [Int.ofNat_eq_coe]; omega
  · rintro ⟨h0, h1⟩
    exact ⟨v.toNat, by omega, by simp only [Int.ofNat_eq_coe]; omega⟩

theorem iota256_nodup : iota256.Nodup := by
  unfold iota256
  apply List.Nodup.map _ (List.nodup_range 256)
  intro a b h
  exact Int.ofNat.inj h

/-- Doubling a permutation of `0..255` gives a table with the permutation invariant. -/
theorem permInvariant_double (q : List Int) (hq : q.Perm iota256) : PermInvariant (q ++ q) := by
  have hl : q.length = 256 := by rw [hq.length_eq, iota256_length]
  refine ⟨by simp [hl], ?_, ?_⟩
  · rw [List.take_left' hl]; exact hq
  · intro i hi
    rw [List.getElem?_append_left (by omega), List.getElem?_append_right (by omega)]
    congr 1
    omega

theorem construct_invariant (engine : Nat → List (Nat × Nat)) (seed : Nat) :
    PermInvariant (PerlinNoise.construct engine seed).p :=
  permInvariant_double _ (shuffle_perm _ _)

theorem count_of_invariant (t : List Int) (h : PermInvariant t) (v : Int)
    (h0 : 0 ≤ v) (h1 : v ≤ 255) : t.count v = 2 := by
  obtain ⟨hlen, hperm, hdup⟩ := h
  have htd : t.drop 256 = t.take 256 := by
    apply List.ext_getElem?
    intro i
    rw [List.getElem?_drop, List.getElem?_take]
    split
    · rename_i hi
      rw [hdup i hi]; congr 1; omega
    · rw [List.getElem?_eq_none]; omega
  have hc : (t.take 256).count v = 1 := by
    rw [hperm.count_eq]
    exact List.count_eq_one_of_mem iota256_nodup ((mem_iota256 v).2 ⟨h0, h1⟩)
  calc t.count v = (t.take 256 ++ t.drop 256).count v := by rw [List.take_append_drop]
    _ = 2 := by rw [List.count_append, htd, hc]

theorem invariant_entry (t : List Int) (h : PermInvariant t) (k : Nat) (hk : k < 512) :
    ∃ v : Int, t[k]? = some v ∧ 0 ≤ v ∧ v ≤ 255 := by
  obtain ⟨hlen, hperm, hdup⟩ := h
  have low : ∀ i, i < 256 → ∃ v : Int, t[i]? = some v ∧ 0 ≤ v ∧ v ≤ 255 := by
    intro i hi
    have hlt : i < t.length := by omega
    have hlt2 : i < (t.take 256).length := by simp; omega
    have hm : (t.take 256)[i] ∈ t.take 256 := List.getElem_mem hlt2
    have hr := (mem_iota256 _).1 (hperm.mem_iff.1 hm)
    rw [List.getElem_take] at hr
    exact ⟨t[i], List.getElem?_eq_getElem hlt, hr⟩
  by_cases hc : k < 256
  · exact low k hc
  · obtain ⟨v, hv, hr⟩ := low (k - 256) (by omega)
    refine ⟨v, ?_, hr⟩
    rw [← hv, hdup (k - 256) (by omega)]
    congr 1
    omega

end Table

/-- C1: for every seed (and whatever swaps the shuffle performs) the table
built by the constructor has exactly 512 entries, its first 256 entries are a
permutation of `0..255`, entry `i` equals entry `i + 256` for `i` in `[0,255]`,
and every value `0..255` occurs exactly twice. -/
theorem construct_table (engine : Nat → List (Nat × Nat)) (seed : Nat) :
    (PerlinNoise.construct engine seed).p.length = 512 ∧
    ((PerlinNoise.construct engine seed).p.take 256).Perm iota256 ∧
    (∀ i : Fin 256, ∃ v : Int, 0 ≤ v ∧ v ≤ 255 ∧
      (PerlinNoise.construct engine seed).p[i.val]? = some v ∧
      (PerlinNoise.construct engine seed).p[i.val + 256]? = some v) ∧
    (∀ v : Fin 256, (PerlinNoise.construct engine seed).p.count (v.val : Int) = 2) := by
  have hinv := construct_invariant engine seed
  refine ⟨hinv.1, hinv.2.1, ?_, ?_⟩
  · intro i
    obtain ⟨v, hv, h0, h1⟩ := invariant_entry _ hinv i.val (by omega)
    exact ⟨v, h0, h1, hv, by rw [← hinv.2.2 i.val i.isLt]; exact hv⟩
  · intro v
    exact count_of_invariant _ hinv _ (by omega) (by omega)

section Grad

variable {α : Type} [LinearOrderedField α]

theorem ldiff_seven (m : Nat) : Nat.ldiff 7 m = 7 - m % 8 := by
  have h1 : Nat.ldiff 7 m = Nat.ldiff 7 (m % 8) := by
    apply Nat.eq_of_testBit_eq
    intro k
    rw [Nat.testBit_ldiff, Nat.testBit_ldiff]
    by_cases hk : k < 3
    · have h8 : m % 8 = m % 2 ^ 3 := by norm_num
      rw [h8, Nat.testBit_mod_two_pow]
      simp [hk]
    · have h7 : Nat.testBit 7 k = false := by
        apply Nat.testBit_lt_two_pow
        calc 7 < 2 ^ 3 := by norm_num
          _ ≤ 2 ^ k := Nat.pow_le_pow_right (by norm_num) (by omega)
      simp [h7]
  rw [h1]
  have hlt : m % 8 < 8 := Nat.mod_lt _ (by norm_num)
  generalize m % 8 = r at hlt
  interval_cases r <;> simp [Nat.ldiff, Nat.bitwise]

/-- On two's-complement integers `hash & 7` is the Euclidean remainder modulo 8. -/
theorem land_seven (hash : Int) : Int.land hash 7 = hash % 8 := by
  cases hash with
  | ofNat m =>
    show ((m &&& 7 : Nat) : Int) = (m : Int) % 8
    have h := Nat.and_pow_two_sub_one_eq_mod m 3
    norm_num at h
    rw [h]; norm_cast
  | negSucc m =>
    show ((Nat.ldiff 7 m : Nat) : Int) = Int.negSucc m % 8
    rw [ldiff_seven, Int.negSucc_eq]
    have hlt : m % 8 < 8 := Nat.mod_lt _ (by norm_num)
    omega

/-- The value of `grad` as the dot product with the direction chosen by `hash mod 8`. -/
theorem grad_eq_dir (hash : Int) (x y : α) :
    PerlinNoise.grad hash x y = (gradDir (hash % 8)).1 * x + (gradDir (hash % 8)).2 * y := by
  have h0 : 0 ≤ hash % 8 := Int.emod_nonneg _ (by norm_num)
  have h8 : hash % 8 < 8 := Int.emod_lt_of_pos _ (by norm_num)
  unfold PerlinNoise.grad
  simp only [land_seven]
  generalize hash % 8 = k at h0 h8
  have e4 : (4 : Nat) &&& 2 = 0 := by decide
  have e5 : (5 : Nat) &&& 2 = 0 := by decide
  interval_cases k <;> simp [gradDir, Int.land, e4, e5] <;> ring

end Grad

/-- C9: for every integer hash and all x, y, `grad hash x y` depends only on
`hash mod 8` and is the dot product of `(x, y)` with the k-th of eight pairwise
distinct directions, `k = hash mod 8`: `x+2y`, `-x+2y`, `x-2y`, `-x-2y`, `y+2x`,
`-y+2x`, `y-2x`, `-y-2x` for `k = 0, ..., 7`. -/
theorem grad_eight_directions (hash : Int) (x y : ℝ) :
    PerlinNoise.grad hash x y = PerlinNoise.grad (hash % 8) x y ∧
    PerlinNoise.grad hash x y = (gradDir (hash % 8)).1 * x + (gradDir (hash % 8)).2 * y ∧
    (0 ≤ hash % 8 ∧ hash % 8 < 8) ∧
    (List.map (gradDir : Int → ℝ × ℝ) [0, 1, 2, 3, 4, 5, 6, 7]).Nodup ∧
    (gradDir 0).1 * x + (gradDir 0).2 * y = x + 2 * y ∧
    (gradDir 1).1 * x + (gradDir 1).2 * y = -x + 2 * y ∧
    (gradDir 2).1 * x + (gradDir 2).2 * y = x - 2 * y ∧
    (gradDir 3).1 * x + (gradDir 3).2 * y = -x - 2 * y ∧
    (gradDir 4).1 * x + (gradDir 4).2 * y = y + 2 * x ∧
    (gradDir 5).1 * x + (gradDir 5).2 * y = -y + 2 * x ∧
    (gradDir 6).1 * x + (gradDir 6).2 * y = y - 2 * x ∧
    (gradDir 7).1 * x + (gradDir 7).2 * y = -y - 2 * x := by
  refine ⟨?_, grad_eq_dir hash x y, ⟨Int.emod_nonneg _ (by norm_num),
    Int.emod_lt_of_pos _ (by norm_num)⟩, ?_, ?_, ?_, ?_, ?_, ?_, ?_, ?_, ?_⟩
  · rw [grad_eq_dir hash, grad_eq_dir (hash % 8), Int.emod_emod_of_dvd _ (dvd_refl 8)]
  · simp [gradDir, Prod.ext_iff]
    norm_num
  all_goals simp only [gradDir]; ring

section Fade

theorem fade_hasDerivAt (t : ℝ) :
    HasDerivAt (PerlinNoise.fade : ℝ → ℝ) (30 * t ^ 4 - 60 * t ^ 3 + 30 * t ^ 2) t := by
  have h : HasDerivAt (fun s : ℝ => 6 * s ^ 5 - 15 * s ^ 4 + 10 * s ^ 3)
      (6 * (5 * t ^ 4) - 15 * (4 * t ^ 3) + 10 * (3 * t ^ 2)) t := by
    have h5 := (hasDerivAt_pow 5 t).const_mul (6 : ℝ)
    have h4 := (hasDerivAt_pow 4 t).const_mul (15 : ℝ)
    have h3 := (hasDerivAt_pow 3 t).const_mul (10 : ℝ)
    have hsum := (h5.sub h4).add h3
    norm_num at hsum
    exact hsum
  have e : (PerlinNoise.fade : ℝ → ℝ) = fun s : ℝ => 6 * s ^ 5 - 15 * s ^ 4 + 10 * s ^ 3 := by
    funext s; unfold PerlinNoise.fade; ring
  rw [e]
  convert h using 1
  ring

theorem fade_deriv :
    deriv (PerlinNoise.fade : ℝ → ℝ) = fun t => 30 * t ^ 4 - 60 * t ^ 3 + 30 * t ^ 2 :=
  funext fun t => (fade_hasDerivAt t).deriv

theorem fade_deriv_hasDerivAt (t : ℝ) :
    HasDerivAt (deriv (PerlinNoise.fade : ℝ → ℝ)) (120 * t ^ 3 - 180 * t ^ 2 + 60 * t) t := by
  rw [fade_deriv]
  have h4 := (hasDerivAt_pow 4 t).const_mul (30 : ℝ)
  have h3 := (hasDerivAt_pow 3 t).const_mul (60 : ℝ)
  have h2 := (hasDerivAt_pow 2 t).const_mul (30 : ℝ)
  have hsum := (h4.sub h3).add h2
  convert hsum using 1
  norm_num
  ring

end Fade

/-- C10: for every real t, `fade t = t^3 (t (6t - 15) + 10) = 6t^5 - 15t^4 + 10t^3`;
`fade 0 = 0`, `fade 1 = 1`, `fade` is twice differentiable, and its first and
second derivatives vanish at `t = 0` and at `t = 1`. -/
theorem fade_smoothstep :
    (∀ t : ℝ, PerlinNoise.fade t = t ^ 3 * (t * (6 * t - 15) + 10) ∧
      PerlinNoise.fade t = 6 * t ^ 5 - 15 * t ^ 4 + 10 * t ^ 3) ∧
    PerlinNoise.fade (0 : ℝ) = 0 ∧ PerlinNoise.fade (1 : ℝ) = 1 ∧
    Differentiable ℝ (PerlinNoise.fade : ℝ → ℝ) ∧
    Differentiable ℝ (deriv (PerlinNoise.fade : ℝ → ℝ)) ∧
    deriv (PerlinNoise.fade : ℝ → ℝ) 0 = 0 ∧ deriv (PerlinNoise.fade : ℝ → ℝ) 1 = 0 ∧
    deriv (deriv (PerlinNoise.fade : ℝ → ℝ)) 0 = 0 ∧
    deriv (deriv (PerlinNoise.fade : ℝ → ℝ)) 1 = 0 := by
  refine ⟨fun t => ⟨by unfold PerlinNoise.fade; ring, by unfold PerlinNoise.fade; ring⟩,
    by norm_num [PerlinNoise.fade], by norm_num [PerlinNoise.fade],
    fun t => (fade_hasDerivAt t).differentiableAt,
    fun t => (fade_deriv_hasDerivAt t).differentiableAt, ?_, ?_, ?_, ?_⟩
  · rw [fade_deriv]; norm_num
  · rw [fade_deriv]; norm_num
  · rw [(fade_deriv_hasDerivAt 0).deriv]; norm_num
  · rw [(fade_deriv_hasDerivAt 1).deriv]; norm_num

section Noise

variable {α : Type} [LinearOrderedField α] [FloorRing α]

theorem index_eq_entry (self : PerlinNoise) (hinv : PermInvariant self.p) (k : Int)
    (h0 : 0 ≤ k) (h1 : k < 512) :
    self.index k = .ok (self.entry k) ∧ 0 ≤ self.entry k ∧ self.entry k ≤ 255 := by
  obtain ⟨v, hv, hr⟩ := invariant_entry self.p hinv k.toNat (by omega)
  unfold PerlinNoise.index PerlinNoise.entry
  rw [hv]
  simp [h0, hr]

theorem toInt_ok (z : Int) (h0 : 0 ≤ z) (h1 : z ≤ 2147483647) :
    PerlinNoise.toInt z = .ok z := by
  unfold PerlinNoise.toInt
  rw [if_pos ⟨by omega, h1⟩]

/-- On the non-negative domain inside the `int` range, `perlinNoise` returns the
bilinear cell value of the cell containing the point. -/
theorem perlinNoise_eq_cellValue (self : PerlinNoise) (hinv : PermInvariant self.p) (x y : α)
    (hx : 0 ≤ x) (hy : 0 ≤ y) (hxr : ⌊x⌋ ≤ 2147483647) (hyr : ⌊y⌋ ≤ 2147483647) :
    self.perlinNoise x y = .ok (self.cellValue ⌊x⌋ ⌊y⌋ x y) := by
  have hfx : 0 ≤ ⌊x⌋ := Int.floor_nonneg.2 hx
  have hfy : 0 ≤ ⌊y⌋ := Int.floor_nonneg.2 hy
  have ex0 : Int.tmod ⌊x⌋ 256 = ⌊x⌋ % 256 := Int.tmod_eq_emod hfx (by norm_num)
  have ey0 : Int.tmod ⌊y⌋ 256 = ⌊y⌋ % 256 := Int.tmod_eq_emod hfy (by norm_num)
  have ex1 : Int.tmod (⌊x⌋ % 256 + 1) 256 = (⌊x⌋ + 1) % 256 := by
    rw [Int.tmod_eq_emod (by omega) (by norm_num)]; omega
  have ey1 : Int.tmod (⌊y⌋ % 256 + 1) 256 = (⌊y⌋ + 1) % 256 := by
    rw [Int.tmod_eq_emod (by omega) (by norm_num)]; omega
  have ix0 := index_eq_entry self hinv (⌊x⌋ % 256) (by omega) (by omega)
  have ix1 := index_eq_entry self hinv ((⌊x⌋ + 1) % 256) (by omega) (by omega)
  have ia := index_eq_entry self hinv (self.entry (⌊x⌋ % 256) + ⌊y⌋ % 256) (by omega) (by omega)
  have ib := index_eq_entry self hinv (self.entry ((⌊x⌋ + 1) % 256) + ⌊y⌋ % 256)
    (by omega) (by omega)
  have ic := index_eq_entry self hinv (self.entry (⌊x⌋ % 256) + (⌊y⌋ + 1) % 256)
    (by omega) (by omega)
  have id := index_eq_entry self hinv (self.entry ((⌊x⌋ + 1) % 256) + (⌊y⌋ + 1) % 256)
    (by omega) (by omega)
  unfold PerlinNoise.perlinNoise
  simp only [toInt_ok _ hfx hxr, toInt_ok _ hfy hyr, ex0, ey0, ex1, ey1, ix0.1, ix1.1, ia.1,
    ib.1, ic.1, id.1, bind, Except.bind, pure, Except.pure, PerlinNoise.cellValue,
    PerlinNoise.cornerHash]

end Noise

section Lattice

variable {α : Type} [LinearOrderedField α] [FloorRing α]

omit [FloorRing α] in
theorem grad_zero (hash : Int) : PerlinNoise.grad hash (0 : α) 0 = 0 := by
  rw [grad_eq_dir]; ring

theorem noiseValue_eq (self : PerlinNoise) (x y v : α) (h : self.perlinNoise x y = .ok v) :
    self.noiseValue x y = v := by
  unfold PerlinNoise.noiseValue
  rw [h]

theorem lattice_value_zero (self : PerlinNoise) (hinv : PermInvariant self.p) (i j : Nat)
    (hi : i ≤ 2147483647) (hj : j ≤ 2147483647) :
    self.perlinNoise (i : α) (j : α) = .ok 0 := by
  have hfi : ⌊(i : α)⌋ = (i : Int) := Int.floor_natCast i
  have hfj : ⌊(j : α)⌋ = (j : Int) := Int.floor_natCast j
  rw [perlinNoise_eq_cellValue self hinv (i : α) (j : α) (Nat.cast_nonneg i) (Nat.cast_nonneg j)
    (by rw [hfi]; omega) (by rw [hfj]; omega), hfi, hfj]
  congr 1
  simp [PerlinNoise.cellValue, PerlinNoise.lerp, PerlinNoise.fade, grad_zero]

end Lattice

/-- C5: lattice zero.  For a table with the permutation invariant and all
non-negative integers `i`, `j` (in `int` range), `perlinNoise i j` returns `0`. -/
theorem perlinNoise_lattice_zero {α : Type} [LinearOrderedField α] [FloorRing α]
    (self : PerlinNoise) (hinv : PermInvariant self.p) (i j : Nat)
    (hi : i ≤ 2147483647) (hj : j ≤ 2147483647) :
    self.perlinNoise (i : α) (j : α) = .ok 0 :=
  lattice_value_zero self hinv i j hi hj

/-- Witness for C5: the table `swapTable` at the lattice point `(255, 256)`. -/
theorem perlinNoise_lattice_zero_witness :
    PermInvariant swapTable.p ∧ swapTable.perlinNoise (255 : ℚ) (256 : ℚ) = .ok 0 :=
  ⟨construct_invariant _ _, by
    have h := perlinNoise_lattice_zero (α := ℚ) swapTable (construct_invariant _ _) 255 256
      (by norm_num) (by norm_num)
    simpa using h⟩

section Determinism

/-- In the loop of `main` the engine is always the one constructed from the
current seed, whatever edits came before. -/
theorem runEdits_noise {α : Type} (engine : Nat → List (Nat × Nat))
    (edits : List (SliderEdit α)) :
    ∀ st : SeedState, st.noise = PerlinNoise.construct engine st.seed →
      (runEdits engine st edits).noise =
        PerlinNoise.construct engine (runEdits engine st edits).seed := by
  induction edits with
  | nil => intro st h; exact h
  | cons e rest ih =>
    intro st h
    show (runEdits engine (handleEdit engine st e) rest).noise = _
    apply ih
    cases e with
    | seed seed_i => rfl
    | scale _ => exact h
    | octaves _ => exact h
    | persistence _ => exact h

/-- Against a deterministic library two constructions from one seed build the
same engine. -/
theorem constructs_unique (lib : ShuffleBehaviour) (hdet : lib.Deterministic) (seed : Nat)
    (n1 n2 : PerlinNoise) (h1 : PerlinNoise.Constructs lib seed n1)
    (h2 : PerlinNoise.Constructs lib seed n2) : n1 = n2 := by
  obtain ⟨s1, hs1, e1⟩ := h1
  obtain ⟨s2, hs2, e2⟩ := h2
  rw [e1, e2, hdet seed s1 s2 hs1 hs2]

set_option maxRecDepth 100000 in
/-- Two different swap sequences can give two different tables. -/
theorem construct_swaps_differ (seed : Nat) :
    (PerlinNoise.construct (fun _ => []) seed).p ≠
      (PerlinNoise.construct (fun _ => [(1, 2)]) seed).p := by
  intro h
  have h1 := congrArg (fun l : List Int => l[1]?) h
  have e1 : (PerlinNoise.construct (fun _ => []) seed).p[1]? = some 1 := by
    show (shuffle [] iota256 ++ shuffle [] iota256)[1]? = some 1
    decide
  have e2 : (PerlinNoise.construct (fun _ => [(1, 2)]) seed).p[1]? = some 2 := by
    show (shuffle [(1, 2)] iota256 ++ shuffle [(1, 2)] iota256)[1]? = some 2
    decide
  simp only [e1, e2] at h1
  cases h1

end Determinism

/-- C7: the constructed engine is a function of the seed alone.  Against a
deterministic library, two constructions with the same seed give equal tables
and equal `perlinNoise` results (against a library that is not deterministic they
need not); the table is the shuffled `0..255` of that seed, twice, and has the
permutation invariant; the assignment `noise = PerlinNoise(seed)` ignores the
engine it replaces, so replacing the engine by `PerlinNoise(2)` and then by
`PerlinNoise(1)` gives exactly the table of the first `PerlinNoise(1)`; and after
any sequence of slider edits in `main` the engine is the one constructed from
the current seed. -/
theorem reseed_deterministic (engine : Nat → List (Nat × Nat)) (old1 old2 : PerlinNoise)
    (seed : Nat) :
    (∀ (lib : ShuffleBehaviour), lib.Deterministic → ∀ (s : Nat) (n1 n2 : PerlinNoise),
      PerlinNoise.Constructs lib s n1 → PerlinNoise.Constructs lib s n2 →
      n1.p = n2.p ∧ ∀ x y : ℝ, n1.perlinNoise x y = n2.perlinNoise x y) ∧
    (∃ (lib : ShuffleBehaviour) (n1 n2 : PerlinNoise),
      PerlinNoise.Constructs lib seed n1 ∧ PerlinNoise.Constructs lib seed n2 ∧ n1.p ≠ n2.p) ∧
    (reseed engine old1 seed).p =
      shuffle (engine seed) iota256 ++ shuffle (engine seed) iota256 ∧
    PermInvariant (reseed engine old1 seed).p ∧
    (reseed engine old1 seed).p = (reseed engine old2 seed).p ∧
    (∀ x y : ℝ, (reseed engine old1 seed).perlinNoise x y =
      (reseed engine old2 seed).perlinNoise x y) ∧
    (reseed engine (reseed engine (PerlinNoise.construct engine 1) 2) 1).p =
      shuffle (engine 1) iota256 ++ shuffle (engine 1) iota256 ∧
    (reseed engine (reseed engine (PerlinNoise.construct engine 1) 2) 1).p =
      (PerlinNoise.construct engine 1).p ∧
    (∀ edits : List (SliderEdit ℝ),
      (runEdits engine (initialState engine) edits).noise.p =
        shuffle (engine (runEdits engine (initialState engine) edits).seed) iota256 ++
          shuffle (engine (runEdits engine (initialState engine) edits).seed) iota256) ∧
    (∀ (edits : List (SliderEdit ℝ)) (seed_i : Int),
      (runEdits engine (initialState engine) (edits ++ [SliderEdit.seed seed_i])).noise.p =
        (PerlinNoise.construct engine (toUnsigned seed_i)).p) := by
  refine ⟨?_, ?_, rfl, construct_invariant engine seed, rfl, fun _ _ => rfl, rfl, rfl, ?_, ?_⟩
  · intro lib hdet s n1 n2 h1 h2
    have e := constructs_unique lib hdet s n1 n2 h1 h2
    rw [e]
    exact ⟨rfl, fun _ _ => rfl⟩
  · exact ⟨fun _ _ => True, PerlinNoise.construct (fun _ => []) seed,
      PerlinNoise.construct (fun _ => [(1, 2)]) seed, ⟨[], trivial, rfl⟩,
      ⟨[(1, 2)], trivial, rfl⟩, construct_swaps_differ seed⟩
  · intro edits
    rw [runEdits_noise engine edits (initialState engine) rfl]
    rfl
  · intro edits seed_i
    have h := runEdits_noise engine (edits ++ [SliderEdit.seed seed_i]) (initialState engine) rfl
    rw [h]
    unfold runEdits
    rw [List.foldl_append]
    rfl

/-- Witness for C7: the library whose shuffle always swaps positions 1 and 2 is
deterministic, and two constructions against it with seed 1 agree. -/
theorem reseed_deterministic_witness :
    ShuffleBehaviour.Deterministic (fun _ swaps => swaps = [(1, 2)]) ∧
    PerlinNoise.Constructs (fun _ swaps => swaps = [(1, 2)]) 1 swapTable ∧
    PerlinNoise.Constructs (fun _ swaps => swaps = [(1, 2)]) 1
      { p := shuffle [(1, 2)] iota256 ++ shuffle [(1, 2)] iota256 } ∧
    swapTable.p = shuffle [(1, 2)] iota256 ++ shuffle [(1, 2)] iota256 := by
  have hdet : ShuffleBehaviour.Deterministic (fun _ swaps => swaps = [(1, 2)]) := by
    intro seed s1 s2 h1 h2
    rw [h1, h2]
  have hc1 : PerlinNoise.Constructs (fun _ swaps => swaps = [(1, 2)]) 1 swapTable :=
    ⟨[(1, 2)], rfl, rfl⟩
  have hc2 : PerlinNoise.Constructs (fun _ swaps => swaps = [(1, 2)]) 1
      { p := shuffle [(1, 2)] iota256 ++ shuffle [(1, 2)] iota256 } :=
    ⟨[(1, 2)], rfl, rfl⟩
  exact ⟨hdet, hc1, hc2,
    ((reseed_deterministic (fun _ => []) swapTable swapTable 1).1 _ hdet 1 _ _ hc1 hc2).1⟩

section Octaves

variable {α : Type} [LinearOrderedField α] [FloorRing α]

/-- The loop invariant of `perlinNoiseOctaves`: after `k` iterations from the
state `s`, when the `k` samples taken are `N 0, ..., N (k-1)`. -/
theorem octaveLoop_eq (self : PerlinNoise) (x y p : α) (k : Nat) :
    ∀ (s : PerlinNoise.OctaveState α) (N : Nat → α),
      (∀ i, i < k → self.perlinNoise (x * (s.frequency * 2 ^ i)) (y * (s.frequency * 2 ^ i))
        = .ok (N i)) →
      PerlinNoise.octaveLoop self x y p k s = .ok
        { total := s.total + ∑ i in Finset.range k, N i * (s.amplitude * p ^ i)
          frequency := s.frequency * 2 ^ k
          amplitude := s.amplitude * p ^ k
          max_value := s.max_value + ∑ i in Finset.range k, s.amplitude * p ^ i } := by
  induction k with
  | zero =>
    intro s N _
    simp [PerlinNoise.octaveLoop, pure, Except.pure]
  | succ k ih =>
    intro s N hN
    have h0 := hN 0 (Nat.succ_pos k)
    simp only [pow_zero, mul_one] at h0
    have hstep : PerlinNoise.octaveStep self x y p s = .ok
        { total := s.total + N 0 * s.amplitude
          max_value := s.max_value + s.amplitude
          amplitude := s.amplitude * p
          frequency := s.frequency * 2 } := by
      simp only [PerlinNoise.octaveStep, h0, bind, Except.bind, pure, Except.pure]
    have hrest := ih { total := s.total + N 0 * s.amplitude
                       max_value := s.max_value + s.amplitude
                       amplitude := s.amplitude * p
                       frequency := s.frequency * 2 } (fun i => N (i + 1)) (by
      intro i hi
      have h := hN (i + 1) (Nat.succ_lt_succ hi)
      rw [pow_succ'] at h
      rw [mul_assoc]
      exact h)
    simp only [PerlinNoise.octaveLoop, hstep, bind, Except.bind]
    rw [hrest]
    congr 1
    rw [Finset.sum_range_succ' _ k, Finset.sum_range_succ' _ k]
    simp only [pow_succ', pow_zero, mul_one]
    congr 1
    · rw [add_assoc]
      congr 1
      rw [add_comm]
      congr 1
      apply Finset.sum_congr rfl
      intro i _
      ring
    · ring
    · ring
    · rw [add_assoc]
      congr 1
      rw [add_comm]
      congr 1
      apply Finset.sum_congr rfl
      intro i _
      ring

omit [FloorRing α] in
theorem amplitude_sum_pos (p : α) (hp : 0 < p) (n : Nat) (hn : 1 ≤ n) :
    1 ≤ ∑ i in Finset.range n, p ^ i := by
  obtain ⟨m, rfl⟩ : ∃ m, n = m + 1 := ⟨n - 1, by omega⟩
  rw [Finset.sum_range_succ']
  simp only [pow_zero]
  have h : 0 ≤ ∑ i in Finset.range m, p ^ (i + 1) :=
    Finset.sum_nonneg fun i _ => (pow_pos hp _).le
  linarith

/-- The result of `perlinNoiseOctaves` when the `n` octave samples are `N i`. -/
theorem perlinNoiseOctaves_eq (self : PerlinNoise) (x y p : α) (n : Nat) (N : Nat → α)
    (hN : ∀ i, i < n → self.perlinNoise (x * 2 ^ i) (y * 2 ^ i) = .ok (N i))
    (hM : (∑ i in Finset.range n, p ^ i) ≠ 0) :
    self.perlinNoiseOctaves x y (n : Int) p = .ok
      ((∑ i in Finset.range n, N i * p ^ i + ∑ i in Finset.range n, p ^ i) /
        (2 * ∑ i in Finset.range n, p ^ i)) := by
  have hloop := octaveLoop_eq self x y p n PerlinNoise.octaveInit N (by
    intro i hi
    simpa [PerlinNoise.octaveInit] using hN i hi)
  simp only [PerlinNoise.octaveInit, zero_add, one_mul] at hloop
  simp only [PerlinNoise.perlinNoiseOctaves, Int.toNat_ofNat, PerlinNoise.octaveInit, hloop,
    bind, Except.bind]
  rw [if_neg (mul_ne_zero two_ne_zero hM)]
  rfl

/-- Every octave sample is defined when the highest-frequency one is in range. -/
theorem octave_sample_defined (self : PerlinNoise) (hinv : PermInvariant self.p) (x y : α)
    (n : Nat) (hx : 0 ≤ x) (hy : 0 ≤ y) (hxr : x * 2 ^ (n - 1) < 2147483648)
    (hyr : y * 2 ^ (n - 1) < 2147483648) (i : Nat) (hi : i < n) :
    self.perlinNoise (x * 2 ^ i) (y * 2 ^ i) =
      .ok (self.cellValue ⌊x * 2 ^ i⌋ ⌊y * 2 ^ i⌋ (x * 2 ^ i) (y * 2 ^ i)) := by
  have hpow : (2 : α) ^ i ≤ 2 ^ (n - 1) := pow_le_pow_right₀ (by norm_num) (by omega)
  have hpos : (0 : α) ≤ 2 ^ i := (pow_pos (by norm_num) i).le
  have bound : ∀ z : α, 0 ≤ z → z * 2 ^ (n - 1) < 2147483648 → ⌊z * 2 ^ i⌋ ≤ 2147483647 := by
    intro z hz hzr
    have h1 : z * 2 ^ i < 2147483648 := lt_of_le_of_lt (mul_le_mul_of_nonneg_left hpow hz) hzr
    have h2 : ⌊z * 2 ^ i⌋ < 2147483648 := Int.floor_lt.2 (by exact_mod_cast h1)
    omega
  exact perlinNoise_eq_cellValue self hinv _ _ (mul_nonneg hx hpos) (mul_nonneg hy hpos)
    (bound x hx hxr) (bound y hy hyr)

end Octaves

/-- C3: for `x, y ≥ 0`, `n ≥ 1` octaves and persistence `p > 0`, writing `N i` for
the value returned by the octave sample `perlinNoise (x 2^i) (y 2^i)`,
`perlinNoiseOctaves x y n p` returns `(T + M) / (2 M)` with
`T = Σ_{i<n} N i p^i` and `M = Σ_{i<n} p^i`; and when the table has the
permutation invariant and the sample points are inside the `int` range, all
`n` samples do return a value. -/
theorem perlinNoiseOctaves_closed_form {α : Type} [LinearOrderedField α] [FloorRing α]
    (self : PerlinNoise) (x y : α) (n : Nat) (p : α)
    (hx : 0 ≤ x) (hy : 0 ≤ y) (hn : 1 ≤ n) (hp : 0 < p) :
    (∀ N : Nat → α,
      (∀ i, i < n → self.perlinNoise (x * 2 ^ i) (y * 2 ^ i) = .ok (N i)) →
      self.perlinNoiseOctaves x y (n : Int) p = .ok
        ((∑ i in Finset.range n, N i * p ^ i + ∑ i in Finset.range n, p ^ i) /
          (2 * ∑ i in Finset.range n, p ^ i))) ∧
    (PermInvariant self.p → x * 2 ^ (n - 1) < 2147483648 → y * 2 ^ (n - 1) < 2147483648 →
      ∀ i, i < n → self.perlinNoise (x * 2 ^ i) (y * 2 ^ i) =
        .ok (self.noiseValue (x * 2 ^ i) (y * 2 ^ i))) := by
  have hM : (∑ i in Finset.range n, p ^ i) ≠ 0 :=
    (lt_of_lt_of_le zero_lt_one (amplitude_sum_pos p hp n hn)).ne'
  refine ⟨fun N hN => perlinNoiseOctaves_eq self x y p n N hN hM, ?_⟩
  intro hinv hxr hyr i hi
  have h := octave_sample_defined self hinv x y n hx hy hxr hyr i hi
  rw [noiseValue_eq self _ _ _ h]
  exact h

/-- Witness for C3: the table `swapTable` at `x = y = 1/2` with two octaves and
persistence `3/4`. -/
theorem perlinNoiseOctaves_closed_form_witness :
    (0 : ℚ) ≤ 1 / 2 ∧ 1 ≤ 2 ∧ (0 : ℚ) < 3 / 4 ∧
    swapTable.perlinNoiseOctaves (1 / 2 : ℚ) (1 / 2) ((2 : Nat) : Int) (3 / 4) = .ok
      ((∑ i in Finset.range 2,
          swapTable.noiseValue ((1 / 2 : ℚ) * 2 ^ i) ((1 / 2 : ℚ) * 2 ^ i) * (3 / 4 : ℚ) ^ i +
          ∑ i in Finset.range 2, (3 / 4 : ℚ) ^ i) /
        (2 * ∑ i in Finset.range 2, (3 / 4 : ℚ) ^ i)) := by
  have h := perlinNoiseOctaves_closed_form swapTable (1 / 2 : ℚ) (1 / 2) 2 (3 / 4)
    (by norm_num) (by norm_num) (by norm_num) (by norm_num)
  exact ⟨by norm_num, by norm_num, by norm_num,
    h.1 _ (h.2 (construct_invariant _ _) (by norm_num) (by norm_num))⟩

section Overshoot

set_option maxRecDepth 100000 in
theorem swapTable_hashes :
    swapTable.cornerHash 0 0 = 0 ∧ swapTable.cornerHash (0 + 1) 0 = 1 ∧
    swapTable.cornerHash 0 (0 + 1) = 2 ∧ swapTable.cornerHash (0 + 1) (0 + 1) = 3 := by
  decide

theorem swapTable_centre : swapTable.perlinNoise (1 / 2 : ℚ) (1 / 2) = .ok (3 / 2) := by
  have hf : ⌊(1 / 2 : ℚ)⌋ = 0 := by norm_num
  rw [perlinNoise_eq_cellValue swapTable (construct_invariant _ _) (1 / 2 : ℚ) (1 / 2)
    (by norm_num) (by norm_num) (by rw [hf]; norm_num) (by rw [hf]; norm_num), hf]
  congr 1
  obtain ⟨ha, hb, hc, hd⟩ := swapTable_hashes
  simp only [PerlinNoise.cellValue, ha, hb, hc, hd, grad_eq_dir]
  norm_num [PerlinNoise.lerp, PerlinNoise.fade, gradDir]

end Overshoot

/-- C4 (violated by the code): on the table `0, 2, 1, 3, ..., 255` (twice), which
has the permutation invariant, `perlinNoise 0.5 0.5` returns `3/2`, and
`perlinNoiseOctaves 0.5 0.5 1 0.75` returns `5/4`, outside `[0, 1]`. -/
theorem perlinNoiseOctaves_exceeds_one :
    PermInvariant swapTable.p ∧
    swapTable.perlinNoise (1 / 2 : ℚ) (1 / 2) = .ok (3 / 2) ∧
    swapTable.perlinNoiseOctaves (1 / 2 : ℚ) (1 / 2) 1 (3 / 4) = .ok (5 / 4) ∧
    ¬ ((5 / 4 : ℚ) ≤ 1) := by
  refine ⟨construct_invariant _ _, swapTable_centre, ?_, by norm_num⟩
  have h := perlinNoiseOctaves_eq swapTable (1 / 2 : ℚ) (1 / 2) (3 / 4) 1 (fun _ => 3 / 2)
    (by
      intro i hi
      obtain rfl : i = 0 := by omega
      simpa using swapTable_centre)
    (by norm_num)
  rw [show ((1 : Nat) : Int) = 1 from rfl] at h
  rw [h]
  norm_num

section Bounds

variable {α : Type} [LinearOrderedField α]

theorem fade_nonneg (t : α) (h0 : 0 ≤ t) : 0 ≤ PerlinNoise.fade t := by
  have hq : 0 ≤ t * (t * 6 - 15) + 10 := by nlinarith [sq_nonneg (4 * t - 5)]
  unfold PerlinNoise.fade
  exact mul_nonneg (mul_nonneg (mul_nonneg h0 h0) h0) hq

theorem fade_le_one (t : α) (h1 : t ≤ 1) : PerlinNoise.fade t ≤ 1 := by
  have hs : 1 - PerlinNoise.fade t = PerlinNoise.fade (1 - t) := by
    unfold PerlinNoise.fade; ring
  have h := fade_nonneg (1 - t) (by linarith)
  linarith

theorem lerp_abs_le (t a b c : α) (h0 : 0 ≤ t) (h1 : t ≤ 1) (ha : |a| ≤ c) (hb : |b| ≤ c) :
    |PerlinNoise.lerp t a b| ≤ c := by
  rw [abs_le] at ha hb ⊢
  unfold PerlinNoise.lerp
  constructor <;> nlinarith [mul_nonneg h0 (sub_nonneg.2 hb.2), mul_nonneg h0 (sub_nonneg.2 hb.1),
    mul_nonneg (sub_nonneg.2 h1) (sub_nonneg.2 ha.2), mul_nonneg (sub_nonneg.2 h1) (sub_nonneg.2 ha.1),
    mul_nonneg h0 (by linarith : 0 ≤ b + c), mul_nonneg (sub_nonneg.2 h1) (by linarith : 0 ≤ a + c)]

theorem grad_abs_le (hash : Int) (a b : α) (ha : |a| ≤ 1) (hb : |b| ≤ 1) :
    |PerlinNoise.grad hash a b| ≤ 3 := by
  have h0 : 0 ≤ hash % 8 := Int.emod_nonneg _ (by norm_num)
  have h8 : hash % 8 < 8 := Int.emod_lt_of_pos _ (by norm_num)
  rw [grad_eq_dir]
  rw [abs_le] at ha hb ⊢
  generalize hash % 8 = k at h0 h8
  interval_cases k <;> simp only [gradDir] <;> constructor <;> linarith [ha.1, ha.2, hb.1, hb.2]

/-- The cell value is at most 3 in absolute value on the closed cell. -/
theorem cellValue_abs_le (self : PerlinNoise) (i j : Int) (x y : α)
    (hx0 : (i : α) ≤ x) (hx1 : x ≤ i + 1) (hy0 : (j : α) ≤ y) (hy1 : y ≤ j + 1) :
    |self.cellValue i j x y| ≤ 3 := by
  have ax : |x - i| ≤ 1 := abs_le.2 ⟨by linarith, by linarith⟩
  have ax1 : |x - i - 1| ≤ 1 := abs_le.2 ⟨by linarith, by linarith⟩
  have ay : |y - j| ≤ 1 := abs_le.2 ⟨by linarith, by linarith⟩
  have ay1 : |y - j - 1| ≤ 1 := abs_le.2 ⟨by linarith, by linarith⟩
  have fx0 := fade_nonneg (x - i) (by linarith)
  have fx1 := fade_le_one (x - i) (by linarith)
  have fy0 := fade_nonneg (y - j) (by linarith)
  have fy1 := fade_le_one (y - j) (by linarith)
  unfold PerlinNoise.cellValue
  exact lerp_abs_le _ _ _ 3 fy0 fy1
    (lerp_abs_le _ _ _ 3 fx0 fx1 (grad_abs_le _ _ _ ax ay) (grad_abs_le _ _ _ ax1 ay))
    (lerp_abs_le _ _ _ 3 fx0 fx1 (grad_abs_le _ _ _ ax ay1) (grad_abs_le _ _ _ ax1 ay1))

end Bounds

section Increments

variable {α : Type} [LinearOrderedField α] [FloorRing α]

/-- Inside the domain the returned noise value is at most 3 in absolute value. -/
theorem noiseValue_abs_le (self : PerlinNoise) (hinv : PermInvariant self.p) (x y : α)
    (hx : 0 ≤ x) (hy : 0 ≤ y) (hxr : ⌊x⌋ ≤ 2147483647) (hyr : ⌊y⌋ ≤ 2147483647) :
    self.perlinNoise x y = .ok (self.noiseValue x y) ∧ |self.noiseValue x y| ≤ 3 := by
  have h := perlinNoise_eq_cellValue self hinv x y hx hy hxr hyr
  rw [noiseValue_eq self _ _ _ h]
  exact ⟨h, cellValue_abs_le self ⌊x⌋ ⌊y⌋ x y (Int.floor_le x) (Int.lt_floor_add_one x).le
    (Int.floor_le y) (Int.lt_floor_add_one y).le⟩

omit [FloorRing α] in
theorem increment_identity (T M N q : α) (hM : M ≠ 0) (hM1 : M + q ≠ 0) :
    (T + N * q + (M + q)) / (2 * (M + q)) - (T + M) / (2 * M) =
      q * (N * M - T) / (2 * M * (M + q)) := by
  field_simp
  ring

omit [FloorRing α] in
theorem weighted_sum_abs_le (N : Nat → α) (p : α) (hp : 0 < p) (n : Nat)
    (hN : ∀ i, i < n → |N i| ≤ 3) :
    |∑ i in Finset.range n, N i * p ^ i| ≤ 3 * ∑ i in Finset.range n, p ^ i := by
  calc |∑ i in Finset.range n, N i * p ^ i|
      ≤ ∑ i in Finset.range n, |N i * p ^ i| := Finset.abs_sum_le_sum_abs _ _
    _ ≤ ∑ i in Finset.range n, 3 * p ^ i := by
        apply Finset.sum_le_sum
        intro i hi
        rw [abs_mul, abs_of_pos (pow_pos hp i)]
        exact mul_le_mul_of_nonneg_right (hN i (Finset.mem_range.1 hi)) (pow_pos hp i).le
    _ = 3 * ∑ i in Finset.range n, p ^ i := by rw [Finset.mul_sum]

omit [FloorRing α] in
/-- The increment caused by one more octave, bounded through the amplitude sums. -/
theorem increment_abs_le (T M N q : α) (hM : 0 < M) (hq : 0 < q) (hT : |T| ≤ 3 * M)
    (hN : |N| ≤ 3) :
    |(T + N * q + (M + q)) / (2 * (M + q)) - (T + M) / (2 * M)| ≤ 3 * q / (M + q) := by
  have hMq : 0 < M + q := add_pos hM hq
  rw [increment_identity T M N q hM.ne' hMq.ne']
  have hnum : |N * M - T| ≤ 6 * M := by
    rw [abs_le] at hT hN ⊢
    constructor <;> nlinarith [hT.1, hT.2, hN.1, hN.2]
  rw [abs_div, abs_mul, abs_of_pos hq, abs_of_pos (by positivity : 0 < 2 * M * (M + q)),
    div_le_div_iff₀ (by positivity) hMq]
  have h1 : q * |N * M - T| ≤ q * (6 * M) := mul_le_mul_of_nonneg_left hnum hq.le
  nlinarith [mul_le_mul_of_nonneg_right h1 hMq.le]

end Increments

section Growth

set_option maxRecDepth 100000 in
theorem swapTable_hashes_column :
    (swapTable.cornerHash 0 1 = 2 ∧ swapTable.cornerHash (0 + 1) 1 = 3 ∧
      swapTable.cornerHash 0 (1 + 1) = 1 ∧ swapTable.cornerHash (0 + 1) (1 + 1) = 4) ∧
    (swapTable.cornerHash 0 3 = 3 ∧ swapTable.cornerHash (0 + 1) 3 = 5 ∧
      swapTable.cornerHash 0 (3 + 1) = 4 ∧ swapTable.cornerHash (0 + 1) (3 + 1) = 6) := by
  decide

theorem swapTable_sample0 : swapTable.perlinNoise (0 : ℚ) (7 / 4) = .ok (-309 / 512) := by
  have hf0 : ⌊(0 : ℚ)⌋ = 0 := by norm_num
  have hf1 : ⌊(7 / 4 : ℚ)⌋ = 1 := by
    rw [Int.floor_eq_iff]; norm_num
  rw [perlinNoise_eq_cellValue swapTable (construct_invariant _ _) (0 : ℚ) (7 / 4)
    (by norm_num) (by norm_num) (by rw [hf0]; norm_num) (by rw [hf1]; norm_num), hf0, hf1]
  congr 1
  obtain ⟨⟨ha, hb, hc, hd⟩, _⟩ := swapTable_hashes_column
  simp only [PerlinNoise.cellValue, ha, hb, hc, hd, grad_eq_dir]
  norm_num [PerlinNoise.lerp, PerlinNoise.fade, gradDir]

theorem swapTable_sample1 : swapTable.perlinNoise (0 : ℚ) (7 / 2) = .ok (-3 / 4) := by
  have hf0 : ⌊(0 : ℚ)⌋ = 0 := by norm_num
  have hf1 : ⌊(7 / 2 : ℚ)⌋ = 3 := by
    rw [Int.floor_eq_iff]; norm_num
  rw [perlinNoise_eq_cellValue swapTable (construct_invariant _ _) (0 : ℚ) (7 / 2)
    (by norm_num) (by norm_num) (by rw [hf0]; norm_num) (by rw [hf1]; norm_num), hf0, hf1]
  congr 1
  obtain ⟨_, ha, hb, hc, hd⟩ := swapTable_hashes_column
  simp only [PerlinNoise.cellValue, ha, hb, hc, hd, grad_eq_dir]
  norm_num [PerlinNoise.lerp, PerlinNoise.fade, gradDir]

theorem swapTable_sample2 : swapTable.perlinNoise (0 : ℚ) 7 = .ok 0 := by
  have h := lattice_value_zero (α := ℚ) swapTable (construct_invariant _ _) 0 7
    (by norm_num) (by norm_num)
  simpa using h

/-- The three octave samples taken from the point `(0, 7/4)`. -/
theorem swapTable_samples (i : Nat) (hi : i < 3) :
    swapTable.perlinNoise ((0 : ℚ) * 2 ^ i) ((7 / 4 : ℚ) * 2 ^ i) =
      .ok (if i = 0 then -309 / 512 else if i = 1 then -3 / 4 else 0) := by
  interval_cases i
  · simpa using swapTable_sample0
  · have e : (7 / 4 : ℚ) * 2 ^ 1 = 7 / 2 := by norm_num
    rw [e, zero_mul]
    simpa using swapTable_sample1
  · have e : (7 / 4 : ℚ) * 2 ^ 2 = 7 := by norm_num
    rw [e, zero_mul]
    simpa using swapTable_sample2

end Growth

/-- C8 as stated fails: on the table `0, 2, 1, 3, ..., 255` (twice) at the point
`(0, 7/4)` with persistence `1/2` the results for 1, 2 and 3 octaves are
`203/1024`, `89/512` and `395/1792`, so the second increment `167/3584` is
larger than the first `25/1024`. -/
theorem octave_increments_not_strict :
    PermInvariant swapTable.p ∧
    swapTable.perlinNoiseOctaves (0 : ℚ) (7 / 4) 1 (1 / 2) = .ok (203 / 1024) ∧
    swapTable.perlinNoiseOctaves (0 : ℚ) (7 / 4) 2 (1 / 2) = .ok (89 / 512) ∧
    swapTable.perlinNoiseOctaves (0 : ℚ) (7 / 4) 3 (1 / 2) = .ok (395 / 1792) ∧
    ¬ (|(395 / 1792 : ℚ) - 89 / 512| < |(89 / 512 : ℚ) - 203 / 1024|) := by
  have e1 := perlinNoiseOctaves_eq swapTable (0 : ℚ) (7 / 4) (1 / 2) 1 _
    (fun i hi => swapTable_samples i (by omega)) (by norm_num [Finset.sum_range_succ])
  have e2 := perlinNoiseOctaves_eq swapTable (0 : ℚ) (7 / 4) (1 / 2) 2 _
    (fun i hi => swapTable_samples i (by omega)) (by norm_num [Finset.sum_range_succ])
  have e3 := perlinNoiseOctaves_eq swapTable (0 : ℚ) (7 / 4) (1 / 2) 3 _
    (fun i hi => swapTable_samples i (by omega)) (by norm_num [Finset.sum_range_succ])
  refine ⟨construct_invariant _ _, ?_, ?_, ?_, ?_⟩
  · rw [show (1 : Int) = ((1 : Nat) : Int) from rfl, e1]
    norm_num [Finset.sum_range_succ]
  · rw [show (2 : Int) = ((2 : Nat) : Int) from rfl, e2]
    norm_num [Finset.sum_range_succ]
  · rw [show (3 : Int) = ((3 : Nat) : Int) from rfl, e3]
    norm_num [Finset.sum_range_succ]
  · rw [not_lt, abs_le]
    constructor <;> norm_num [abs_of_pos]

/-- C8 (amended): for a table with the permutation invariant, `x, y ≥ 0`,
`0 < p < 1` and `n ≥ 1` (sample points inside the `int` range), the results
`S n` and `S (n+1)` of `perlinNoiseOctaves` satisfy
`|S (n+1) - S n| ≤ 3 p^n / M (n+1) ≤ 3 p^n` with `M k = Σ_{i<k} p^i`, and this
bound strictly diminishes: `3 p^(n+1) / M (n+2) < 3 p^n / M (n+1)`. -/
theorem octave_increment_bound {α : Type} [LinearOrderedField α] [FloorRing α]
    (self : PerlinNoise) (hinv : PermInvariant self.p) (x y p : α) (n : Nat)
    (hx : 0 ≤ x) (hy : 0 ≤ y) (hn : 1 ≤ n) (hp0 : 0 < p) (hp1 : p < 1)
    (hxr : x * 2 ^ n < 2147483648) (hyr : y * 2 ^ n < 2147483648) :
    ∃ s0 s1 : α, self.perlinNoiseOctaves x y (n : Int) p = .ok s0 ∧
      self.perlinNoiseOctaves x y ((n + 1 : Nat) : Int) p = .ok s1 ∧
      |s1 - s0| ≤ 3 * p ^ n / ∑ i in Finset.range (n + 1), p ^ i ∧
      3 * p ^ n / ∑ i in Finset.range (n + 1), p ^ i ≤ 3 * p ^ n ∧
      3 * p ^ (n + 1) / ∑ i in Finset.range (n + 2), p ^ i <
        3 * p ^ n / ∑ i in Finset.range (n + 1), p ^ i := by
  have hs : ∀ i, i < n + 1 →
      self.perlinNoise (x * 2 ^ i) (y * 2 ^ i) = .ok (self.noiseValue (x * 2 ^ i) (y * 2 ^ i)) ∧
      |self.noiseValue (x * 2 ^ i) (y * 2 ^ i)| ≤ 3 := by
    intro i hi
    have hpow : (2 : α) ^ i ≤ 2 ^ n := pow_le_pow_right₀ (by norm_num) (by omega)
    have hpos : (0 : α) ≤ 2 ^ i := (pow_pos (by norm_num) i).le
    have bound : ∀ z : α, 0 ≤ z → z * 2 ^ n < 2147483648 → ⌊z * 2 ^ i⌋ ≤ 2147483647 := by
      intro z hz hzr
      have h1 : z * 2 ^ i < 2147483648 :=
        lt_of_le_of_lt (mul_le_mul_of_nonneg_left hpow hz) hzr
      have h2 : ⌊z * 2 ^ i⌋ < 2147483648 := Int.floor_lt.2 (by exact_mod_cast h1)
      omega
    exact noiseValue_abs_le self hinv _ _ (mul_nonneg hx hpos) (mul_nonneg hy hpos)
      (bound x hx hxr) (bound y hy hyr)
  have hM0 : 1 ≤ ∑ i in Finset.range n, p ^ i := amplitude_sum_pos p hp0 n hn
  have hM1 : 1 ≤ ∑ i in Finset.range (n + 1), p ^ i := amplitude_sum_pos p hp0 (n + 1) (by omega)
  have hM2 : 1 ≤ ∑ i in Finset.range (n + 2), p ^ i := amplitude_sum_pos p hp0 (n + 2) (by omega)
  have hq : 0 < p ^ n := pow_pos hp0 n
  have e0 := perlinNoiseOctaves_eq self x y p n _ (fun i hi => (hs i (by omega)).1)
    (lt_of_lt_of_le zero_lt_one hM0).ne'
  have e1 := perlinNoiseOctaves_eq self x y p (n + 1) _ (fun i hi => (hs i hi).1)
    (lt_of_lt_of_le zero_lt_one hM1).ne'
  refine ⟨_, _, e0, e1, ?_, ?_, ?_⟩
  · rw [Finset.sum_range_succ (fun i => self.noiseValue (x * 2 ^ i) (y * 2 ^ i) * p ^ i) n,
      Finset.sum_range_succ (fun i => p ^ i) n]
    exact increment_abs_le _ _ _ _ (lt_of_lt_of_le zero_lt_one hM0) hq
      (weighted_sum_abs_le _ p hp0 n (fun i hi => (hs i (by omega)).2)) (hs n (by omega)).2
  · rw [div_le_iff₀ (lt_of_lt_of_le zero_lt_one hM1)]
    nlinarith
  · rw [div_lt_div_iff₀ (lt_of_lt_of_le zero_lt_one hM2) (lt_of_lt_of_le zero_lt_one hM1)]
    rw [Finset.sum_range_succ' (fun i => p ^ i) (n + 1)]
    have hmul : ∑ i in Finset.range (n + 1), p ^ (i + 1) =
        p * ∑ i in Finset.range (n + 1), p ^ i := by
      rw [Finset.mul_sum]
      apply Finset.sum_congr rfl
      intro i _
      ring
    rw [hmul, pow_succ]
    nlinarith

/-- Witness for the amended C8: the table `swapTable` at `x = y = 1/2` with
persistence `1/2` and `n = 1`. -/
theorem octave_increment_bound_witness :
    PermInvariant swapTable.p ∧ (0 : ℚ) < 1 / 2 ∧ (1 / 2 : ℚ) < 1 ∧
    (1 / 2 : ℚ) * 2 ^ 1 < 2147483648 ∧
    ∃ s0 s1 : ℚ, swapTable.perlinNoiseOctaves (1 / 2 : ℚ) (1 / 2) ((1 : Nat) : Int) (1 / 2) = .ok s0 ∧
      swapTable.perlinNoiseOctaves (1 / 2 : ℚ) (1 / 2) ((1 + 1 : Nat) : Int) (1 / 2) = .ok s1 ∧
      |s1 - s0| ≤ 3 * (1 / 2 : ℚ) ^ 1 / ∑ i in Finset.range (1 + 1), (1 / 2 : ℚ) ^ i ∧
      3 * (1 / 2 : ℚ) ^ 1 / ∑ i in Finset.range (1 + 1), (1 / 2 : ℚ) ^ i ≤ 3 * (1 / 2 : ℚ) ^ 1 ∧
      3 * (1 / 2 : ℚ) ^ (1 + 1) / ∑ i in Finset.range (1 + 2), (1 / 2 : ℚ) ^ i <
        3 * (1 / 2 : ℚ) ^ 1 / ∑ i in Finset.range (1 + 1), (1 / 2 : ℚ) ^ i :=
  ⟨construct_invariant _ _, by norm_num, by norm_num, by norm_num,
    octave_increment_bound swapTable (construct_invariant _ _) (1 / 2 : ℚ) (1 / 2) (1 / 2) 1
      (by norm_num) (by norm_num) (by norm_num) (by norm_num) (by norm_num) (by norm_num)
      (by norm_num)⟩

section Continuity

theorem cellValue_continuous (self : PerlinNoise) (i j : Int) :
    Continuous (fun q : ℝ × ℝ => self.cellValue i j q.1 q.2) := by
  unfold PerlinNoise.cellValue PerlinNoise.lerp PerlinNoise.fade
  simp only [grad_eq_dir]
  fun_prop

/-- The cell values of horizontally adjacent cells agree on their common edge. -/
theorem cellValue_right (self : PerlinNoise) (i j : Int) (y : ℝ) :
    self.cellValue (i + 1) j ((i : ℝ) + 1) y = self.cellValue i j ((i : ℝ) + 1) y := by
  simp only [PerlinNoise.cellValue, PerlinNoise.lerp, PerlinNoise.fade, grad_eq_dir]
  push_cast
  ring

/-- The cell values of vertically adjacent cells agree on their common edge. -/
theorem cellValue_top (self : PerlinNoise) (i j : Int) (x : ℝ) :
    self.cellValue i (j + 1) x ((j : ℝ) + 1) = self.cellValue i j x ((j : ℝ) + 1) := by
  simp only [PerlinNoise.cellValue, PerlinNoise.lerp, PerlinNoise.fade, grad_eq_dir]
  push_cast
  ring

theorem floor_closed_cell (i : Int) (x : ℝ) (h0 : (i : ℝ) ≤ x) (h1 : x ≤ i + 1) :
    ⌊x⌋ = i ∨ (x = (i : ℝ) + 1 ∧ ⌊x⌋ = i + 1) := by
  rcases lt_or_eq_of_le h1 with h | h
  · left
    exact Int.floor_eq_iff.2 ⟨h0, h⟩
  · right
    refine ⟨h, ?_⟩
    rw [h]
    have : ((i : ℝ) + 1) = ((i + 1 : Int) : ℝ) := by push_cast; ring
    rw [this, Int.floor_intCast]

/-- On the closed cell `[i, i+1] × [j, j+1]` the value of the cell containing the
point is the value of the cell `(i, j)`, also on the upper edges. -/
theorem cellValue_floor_eq (self : PerlinNoise) (i j : Int) (x y : ℝ)
    (hx0 : (i : ℝ) ≤ x) (hx1 : x ≤ i + 1) (hy0 : (j : ℝ) ≤ y) (hy1 : y ≤ j + 1) :
    self.cellValue ⌊x⌋ ⌊y⌋ x y = self.cellValue i j x y := by
  rcases floor_closed_cell i x hx0 hx1 with hx | ⟨hx, hfx⟩ <;>
    rcases floor_closed_cell j y hy0 hy1 with hy | ⟨hy, hfy⟩
  · rw [hx, hy]
  · rw [hx, hfy, hy, cellValue_top]
  · rw [hfx, hy, hx, cellValue_right]
  · rw [hfx, hfy, hx, hy, cellValue_top, cellValue_right]

theorem mem_noiseDomain (x y : ℝ) :
    ((x, y) : ℝ × ℝ) ∈ noiseDomain ↔ 0 ≤ x ∧ x < 2147483648 ∧ 0 ≤ y ∧ y < 2147483648 :=
  Iff.rfl

theorem mem_closedCell (c : Int × Int) (q : ℝ × ℝ) :
    q ∈ closedCell c ↔
      ((c.1 : ℝ) ≤ q.1 ∧ q.1 ≤ c.1 + 1) ∧ ((c.2 : ℝ) ≤ q.2 ∧ q.2 ≤ c.2 + 1) := by
  simp only [closedCell, Set.mem_prod, Set.mem_Icc]

theorem closedCell_cover : ⋃ c, closedCell c = Set.univ := by
  apply Set.eq_univ_of_forall
  intro q
  rw [Set.mem_iUnion]
  refine ⟨(⌊q.1⌋, ⌊q.2⌋), ?_⟩
  rw [mem_closedCell]
  exact ⟨⟨Int.floor_le _, (Int.lt_floor_add_one _).le⟩,
    ⟨Int.floor_le _, (Int.lt_floor_add_one _).le⟩⟩

/-- Only finitely many closed cells meet the open box of radius 1 around a point. -/
theorem closedCell_locallyFinite : LocallyFinite closedCell := by
  intro q
  refine ⟨Set.Ioo (q.1 - 1) (q.1 + 1) ×ˢ Set.Ioo (q.2 - 1) (q.2 + 1),
    prod_mem_nhds (Ioo_mem_nhds (by linarith) (by linarith))
      (Ioo_mem_nhds (by linarith) (by linarith)), ?_⟩
  apply Set.Finite.subset
    (Finset.finite_toSet (Finset.Icc (⌊q.1⌋ - 2) (⌊q.1⌋ + 1) ×ˢ
      Finset.Icc (⌊q.2⌋ - 2) (⌊q.2⌋ + 1)))
  rintro c ⟨r, hrc, hrt⟩
  rw [mem_closedCell] at hrc
  simp only [Set.mem_prod, Set.mem_Ioo] at hrt
  have bound : ∀ (i : Int) (z w : ℝ), (i : ℝ) ≤ w → w ≤ i + 1 → z - 1 < w → w < z + 1 →
      ⌊z⌋ - 2 ≤ i ∧ i ≤ ⌊z⌋ + 1 := by
    intro i z w h1 h2 h3 h4
    have hz0 := Int.floor_le z
    have hz1 := Int.lt_floor_add_one z
    have ha : ((⌊z⌋ - 2 : Int) : ℝ) < ((i + 1 : Int) : ℝ) := by push_cast; linarith
    have hb : ((i : Int) : ℝ) < ((⌊z⌋ + 2 : Int) : ℝ) := by push_cast; linarith
    have ha1 := Int.cast_lt.1 ha
    have hb1 := Int.cast_lt.1 hb
    omega
  have b1 := bound c.1 q.1 r.1 hrc.1.1 hrc.1.2 hrt.1.1 hrt.1.2
  have b2 := bound c.2 q.2 r.2 hrc.2.1 hrc.2.2 hrt.2.1 hrt.2.2
  simp only [Finset.coe_product, Finset.coe_Icc, Set.mem_prod, Set.mem_Icc]
  exact ⟨b1, b2⟩

/-- The value of the cell containing the point is continuous on the whole plane. -/
theorem cellNoise_continuous (self : PerlinNoise) :
    Continuous (fun q : ℝ × ℝ => self.cellNoise q.1 q.2) := by
  apply closedCell_locallyFinite.continuous closedCell_cover
  · intro c
    exact isClosed_Icc.prod isClosed_Icc
  · intro c
    refine (cellValue_continuous self c.1 c.2).continuousOn.congr ?_
    intro q hq
    rw [mem_closedCell] at hq
    exact cellValue_floor_eq self _ _ q.1 q.2 hq.1.1 hq.1.2 hq.2.1 hq.2.2

theorem noiseValue_eq_cellNoise (self : PerlinNoise) (hinv : PermInvariant self.p)
    (q : ℝ × ℝ) (hq : q ∈ noiseDomain) :
    self.perlinNoise q.1 q.2 = .ok (self.noiseValue q.1 q.2) ∧
    self.noiseValue q.1 q.2 = self.cellNoise q.1 q.2 := by
  obtain ⟨hx0, hx1, hy0, hy1⟩ := hq
  have fx1 : ⌊q.1⌋ < 2147483648 := Int.floor_lt.2 (by exact_mod_cast hx1)
  have fy1 : ⌊q.2⌋ < 2147483648 := Int.floor_lt.2 (by exact_mod_cast hy1)
  have h := perlinNoise_eq_cellValue self hinv q.1 q.2 hx0 hy0 (by omega) (by omega)
  rw [noiseValue_eq self _ _ _ h]
  exact ⟨h, rfl⟩

theorem noiseValue_continuousOn (self : PerlinNoise) (hinv : PermInvariant self.p) :
    ContinuousOn (fun q : ℝ × ℝ => self.noiseValue q.1 q.2) noiseDomain :=
  (cellNoise_continuous self).continuousOn.congr
    (fun q hq => (noiseValue_eq_cellNoise self hinv q hq).2)

/-- Left limits along a horizontal line inside the domain. -/
theorem noiseValue_left_limit_x (self : PerlinNoise) (hinv : PermInvariant self.p)
    (a y : ℝ) (ha0 : 0 < a) (ha1 : a < 2147483648) (hy0 : 0 ≤ y) (hy1 : y < 2147483648) :
    Filter.Tendsto (fun x : ℝ => self.noiseValue x y) (nhdsWithin a (Set.Iio a))
      (nhds (self.noiseValue a y)) := by
  have hmem : ((a, y) : ℝ × ℝ) ∈ noiseDomain := (mem_noiseDomain a y).2 ⟨ha0.le, ha1, hy0, hy1⟩
  have hc : Filter.Tendsto (fun q : ℝ × ℝ => self.noiseValue q.1 q.2)
      (nhdsWithin (a, y) noiseDomain) (nhds (self.noiseValue a y)) :=
    noiseValue_continuousOn self hinv (a, y) hmem
  have hmap : Filter.Tendsto (fun x : ℝ => ((x, y) : ℝ × ℝ)) (nhdsWithin a (Set.Iio a))
      (nhdsWithin (a, y) noiseDomain) := by
    rw [tendsto_nhdsWithin_iff]
    refine ⟨(Continuous.tendsto (by fun_prop) a).mono_left nhdsWithin_le_nhds, ?_⟩
    have hI : Set.Ioo 0 a ∈ nhdsWithin a (Set.Iio a) := Ioo_mem_nhdsWithin_Iio' ha0
    have hsub : Set.Ioo 0 a ⊆ {x : ℝ | ((x, y) : ℝ × ℝ) ∈ noiseDomain} := by
      intro x hx
      rw [Set.mem_setOf_eq, mem_noiseDomain]
      exact ⟨hx.1.le, hx.2.trans ha1, hy0, hy1⟩
    exact Filter.mem_of_superset hI hsub
  have h := hc.comp hmap
  simp only [Function.comp_def] at h
  exact h

/-- Left limits along a vertical line inside the domain. -/
theorem noiseValue_left_limit_y (self : PerlinNoise) (hinv : PermInvariant self.p)
    (x b : ℝ) (hx0 : 0 ≤ x) (hx1 : x < 2147483648) (hb0 : 0 < b) (hb1 : b < 2147483648) :
    Filter.Tendsto (fun y : ℝ => self.noiseValue x y) (nhdsWithin b (Set.Iio b))
      (nhds (self.noiseValue x b)) := by
  have hmem : ((x, b) : ℝ × ℝ) ∈ noiseDomain := (mem_noiseDomain x b).2 ⟨hx0, hx1, hb0.le, hb1⟩
  have hc : Filter.Tendsto (fun q : ℝ × ℝ => self.noiseValue q.1 q.2)
      (nhdsWithin (x, b) noiseDomain) (nhds (self.noiseValue x b)) :=
    noiseValue_continuousOn self hinv (x, b) hmem
  have hmap : Filter.Tendsto (fun y : ℝ => ((x, y) : ℝ × ℝ)) (nhdsWithin b (Set.Iio b))
      (nhdsWithin (x, b) noiseDomain) := by
    rw [tendsto_nhdsWithin_iff]
    refine ⟨(Continuous.tendsto (by fun_prop) b).mono_left nhdsWithin_le_nhds, ?_⟩
    have hI : Set.Ioo 0 b ∈ nhdsWithin b (Set.Iio b) := Ioo_mem_nhdsWithin_Iio' hb0
    have hsub : Set.Ioo 0 b ⊆ {y : ℝ | ((x, y) : ℝ × ℝ) ∈ noiseDomain} := by
      intro y hy
      rw [Set.mem_setOf_eq, mem_noiseDomain]
      exact ⟨hx0, hx1, hy.1.le, hy.2.trans hb1⟩
    exact Filter.mem_of_superset hI hsub
  have h := hc.comp hmap
  simp only [Function.comp_def] at h
  exact h

end Continuity

/-- C6: continuity.  For a table with the permutation invariant, over the reals
and on the domain `0 ≤ x, y < 2^31` where the call is defined, `perlinNoise`
returns the value of the cell containing the point; that cell value is a
continuous function of `(x, y)` on the whole plane, so the returned value is
continuous on the domain; in particular for every integer `k ≥ 1` the left limit
in `x` at `k` equals the value at `k` (also at `k = 256`, where the cell index
wraps around), and likewise in `y`. -/
theorem perlinNoise_continuous (self : PerlinNoise) (hinv : PermInvariant self.p) :
    (∀ q : ℝ × ℝ, q ∈ noiseDomain →
      self.perlinNoise q.1 q.2 = .ok (self.noiseValue q.1 q.2) ∧
      self.noiseValue q.1 q.2 = self.cellNoise q.1 q.2) ∧
    Continuous (fun q : ℝ × ℝ => self.cellNoise q.1 q.2) ∧
    ContinuousOn (fun q : ℝ × ℝ => self.noiseValue q.1 q.2) noiseDomain ∧
    (∀ (k : Nat) (y : ℝ), 1 ≤ k → k < 2147483648 → 0 ≤ y → y < 2147483648 →
      Filter.Tendsto (fun x : ℝ => self.noiseValue x y) (nhdsWithin (k : ℝ) (Set.Iio (k : ℝ)))
        (nhds (self.noiseValue (k : ℝ) y))) ∧
    (∀ (k : Nat) (x : ℝ), 1 ≤ k → k < 2147483648 → 0 ≤ x → x < 2147483648 →
      Filter.Tendsto (fun y : ℝ => self.noiseValue x y) (nhdsWithin (k : ℝ) (Set.Iio (k : ℝ)))
        (nhds (self.noiseValue x (k : ℝ)))) := by
  refine ⟨fun q hq => noiseValue_eq_cellNoise self hinv q hq, cellNoise_continuous self,
    noiseValue_continuousOn self hinv, ?_, ?_⟩
  · intro k y hk0 hk1 hy0 hy1
    exact noiseValue_left_limit_x self hinv (k : ℝ) y (by exact_mod_cast hk0)
      (by exact_mod_cast hk1) hy0 hy1
  · intro k x hk0 hk1 hx0 hx1
    exact noiseValue_left_limit_y self hinv x (k : ℝ) hx0 hx1 (by exact_mod_cast hk0)
      (by exact_mod_cast hk1)

/-- Witness for C6: the table `swapTable`, with the left limit at the wrap-around
abscissa `256` on the line `y = 1/2`. -/
theorem perlinNoise_continuous_witness :
    PermInvariant swapTable.p ∧
    ContinuousOn (fun q : ℝ × ℝ => swapTable.noiseValue q.1 q.2) noiseDomain ∧
    Filter.Tendsto (fun x : ℝ => swapTable.noiseValue x (1 / 2))
      (nhdsWithin ((256 : Nat) : ℝ) (Set.Iio ((256 : Nat) : ℝ)))
      (nhds (swapTable.noiseValue ((256 : Nat) : ℝ) (1 / 2))) :=
  ⟨construct_invariant _ _, (perlinNoise_continuous swapTable (construct_invariant _ _)).2.2.1,
    (perlinNoise_continuous swapTable (construct_invariant _ _)).2.2.2.1 256 (1 / 2)
      (by norm_num) (by norm_num) (by norm_num) (by norm_num)⟩

section SingleOctave

variable {α : Type} [LinearOrderedField α] [FloorRing α]

/-- One octave: the loop runs once with amplitude 1, before the persistence is used. -/
theorem perlinNoiseOctaves_one (self : PerlinNoise) (x y p : α) :
    self.perlinNoiseOctaves x y 1 p =
      Except.map (fun v => (v + 1) / 2) (self.perlinNoise x y) := by
  have h1 : (1 : Int).toNat = 1 := rfl
  simp only [PerlinNoise.perlinNoiseOctaves, h1, PerlinNoise.octaveLoop, PerlinNoise.octaveStep,
    PerlinNoise.octaveInit, mul_one, bind, Except.bind, pure, Except.pure]
  cases self.perlinNoise x y with
  | error e => rfl
  | ok v =>
    simp only [Except.map, zero_add]
    rw [if_neg (by norm_num)]
    simp [throw, throwThe, MonadExceptOf.throw]

end SingleOctave

/-- C18: with a single octave the persistence has no effect: for all `x`, `y` and
all persistence values `p`, `q`, `perlinNoiseOctaves x y 1 p` and
`perlinNoiseOctaves x y 1 q` are the same, namely `(perlinNoise x y + 1) / 2`
(a fault of `perlinNoise` is passed on unchanged), and on the domain `x, y ≥ 0`
inside the `int` range of a table with the permutation invariant this is a value. -/
theorem single_octave_ignores_persistence {α : Type} [LinearOrderedField α] [FloorRing α]
    (self : PerlinNoise) (x y p q : α) :
    self.perlinNoiseOctaves x y 1 p = self.perlinNoiseOctaves x y 1 q ∧
    self.perlinNoiseOctaves x y 1 p =
      Except.map (fun v => (v + 1) / 2) (self.perlinNoise x y) ∧
    (PermInvariant self.p → 0 ≤ x → 0 ≤ y → ⌊x⌋ ≤ 2147483647 → ⌊y⌋ ≤ 2147483647 →
      self.perlinNoise x y = .ok (self.noiseValue x y) ∧
      self.perlinNoiseOctaves x y 1 p = .ok ((self.noiseValue x y + 1) / 2) ∧
      self.perlinNoiseOctaves x y 1 q = .ok ((self.noiseValue x y + 1) / 2)) := by
  refine ⟨by rw [perlinNoiseOctaves_one, perlinNoiseOctaves_one], perlinNoiseOctaves_one self x y p,
    ?_⟩
  intro hinv hx hy hxr hyr
  have h := (noiseValue_abs_le self hinv x y hx hy hxr hyr).1
  refine ⟨h, ?_, ?_⟩
  · rw [perlinNoiseOctaves_one, h]; rfl
  · rw [perlinNoiseOctaves_one, h]; rfl

/-- Witness for C18: the table `swapTable` at `x = y = 1/2` with persistences
`3/4` and `5`. -/
theorem single_octave_ignores_persistence_witness :
    PermInvariant swapTable.p ∧ (0 : ℚ) ≤ 1 / 2 ∧ ⌊(1 / 2 : ℚ)⌋ ≤ 2147483647 ∧
    swapTable.perlinNoiseOctaves (1 / 2 : ℚ) (1 / 2) 1 (3 / 4) =
      .ok ((swapTable.noiseValue (1 / 2 : ℚ) (1 / 2) + 1) / 2) ∧
    swapTable.perlinNoiseOctaves (1 / 2 : ℚ) (1 / 2) 1 5 =
      .ok ((swapTable.noiseValue (1 / 2 : ℚ) (1 / 2) + 1) / 2) := by
  have hinv : PermInvariant swapTable.p := construct_invariant _ _
  have h0 : (0 : ℚ) ≤ 1 / 2 := by norm_num
  have hf : ⌊(1 / 2 : ℚ)⌋ ≤ 2147483647 := by norm_num
  have h := (single_octave_ignores_persistence swapTable (1 / 2 : ℚ) (1 / 2) (3 / 4) 5).2.2
    hinv h0 h0 hf hf
  exact ⟨hinv, h0, hf, h.2.1, h.2.2⟩

section Periodicity

variable {α : Type} [LinearOrderedField α] [FloorRing α]

theorem cornerHash_congr (self : PerlinNoise) (a b c d : Int) (h1 : a % 256 = b % 256)
    (h2 : c % 256 = d % 256) : self.cornerHash a c = self.cornerHash b d := by
  unfold PerlinNoise.cornerHash
  rw [h1, h2]

omit [FloorRing α] in
/-- Shifting the cell and the point by 256 in `x` leaves the cell value unchanged. -/
theorem cellValue_shift_x (self : PerlinNoise) (i j : Int) (x y : α) :
    self.cellValue (i + 256) j (x + 256) y = self.cellValue i j x y := by
  have e0 : ∀ c : Int, self.cornerHash (i + 256) c = self.cornerHash i c :=
    fun c => cornerHash_congr self _ _ _ _ (by omega) rfl
  have e1 : ∀ c : Int, self.cornerHash (i + 256 + 1) c = self.cornerHash (i + 1) c :=
    fun c => cornerHash_congr self _ _ _ _ (by omega) rfl
  have ex : x + 256 - ((i + 256 : Int) : α) = x - (i : α) := by push_cast; ring
  simp only [PerlinNoise.cellValue, e0, e1, ex]

omit [FloorRing α] in
/-- Shifting the cell and the point by 256 in `y` leaves the cell value unchanged. -/
theorem cellValue_shift_y (self : PerlinNoise) (i j : Int) (x y : α) :
    self.cellValue i (j + 256) x (y + 256) = self.cellValue i j x y := by
  have e0 : ∀ c : Int, self.cornerHash c (j + 256) = self.cornerHash c j :=
    fun c => cornerHash_congr self _ _ _ _ rfl (by omega)
  have e1 : ∀ c : Int, self.cornerHash c (j + 256 + 1) = self.cornerHash c (j + 1) :=
    fun c => cornerHash_congr self _ _ _ _ rfl (by omega)
  have ey : y + 256 - ((j + 256 : Int) : α) = y - (j : α) := by push_cast; ring
  simp only [PerlinNoise.cellValue, e0, e1, ey]

theorem floor_add_256 (x : α) : ⌊x + 256⌋ = ⌊x⌋ + 256 := by
  have h : x + 256 = x + ((256 : Int) : α) := by push_cast; ring
  rw [h, Int.floor_add_int]

end Periodicity

/-- C17: periodicity.  For a table with the permutation invariant and `x, y ≥ 0`
with `x + 256` and `y + 256` still inside the `int` range, `perlinNoise` returns
a value at `(x, y)` and the same value at `(x + 256, y)` and at `(x, y + 256)`. -/
theorem perlinNoise_periodic {α : Type} [LinearOrderedField α] [FloorRing α]
    (self : PerlinNoise) (hinv : PermInvariant self.p) (x y : α)
    (hx : 0 ≤ x) (hy : 0 ≤ y) (hxr : ⌊x⌋ + 256 ≤ 2147483647) (hyr : ⌊y⌋ + 256 ≤ 2147483647) :
    self.perlinNoise x y = .ok (self.noiseValue x y) ∧
    self.perlinNoise (x + 256) y = self.perlinNoise x y ∧
    self.perlinNoise x (y + 256) = self.perlinNoise x y := by
  have h0 := perlinNoise_eq_cellValue self hinv x y hx hy (by omega) (by omega)
  have hx256 : (0 : α) ≤ x + 256 := by linarith
  have hy256 : (0 : α) ≤ y + 256 := by linarith
  have h1 := perlinNoise_eq_cellValue self hinv (x + 256) y hx256 hy
    (by rw [floor_add_256]; omega) (by omega)
  have h2 := perlinNoise_eq_cellValue self hinv x (y + 256) hx hy256 (by omega)
    (by rw [floor_add_256]; omega)
  refine ⟨(noiseValue_abs_le self hinv x y hx hy (by omega) (by omega)).1, ?_, ?_⟩
  · rw [h1, h0, floor_add_256, cellValue_shift_x]
  · rw [h2, h0, floor_add_256, cellValue_shift_y]

/-- Witness for C17: the table `swapTable` at `x = 1/2`, `y = 7/4`. -/
theorem perlinNoise_periodic_witness :
    PermInvariant swapTable.p ∧ (0 : ℚ) ≤ 1 / 2 ∧ (0 : ℚ) ≤ 7 / 4 ∧
    ⌊(1 / 2 : ℚ)⌋ + 256 ≤ 2147483647 ∧ ⌊(7 / 4 : ℚ)⌋ + 256 ≤ 2147483647 ∧
    swapTable.perlinNoise ((1 / 2 : ℚ) + 256) (7 / 4) = swapTable.perlinNoise (1 / 2 : ℚ) (7 / 4) ∧
    swapTable.perlinNoise (1 / 2 : ℚ) ((7 / 4 : ℚ) + 256) =
      swapTable.perlinNoise (1 / 2 : ℚ) (7 / 4) := by
  have hinv : PermInvariant swapTable.p := construct_invariant _ _
  have h0 : (0 : ℚ) ≤ 1 / 2 := by norm_num
  have h1 : (0 : ℚ) ≤ 7 / 4 := by norm_num
  have hf0 : ⌊(1 / 2 : ℚ)⌋ + 256 ≤ 2147483647 := by norm_num
  have hf1 : ⌊(7 / 4 : ℚ)⌋ + 256 ≤ 2147483647 := by
    have e : ⌊(7 / 4 : ℚ)⌋ = 1 := by rw [Int.floor_eq_iff]; norm_num
    rw [e]; norm_num
  have h := perlinNoise_periodic swapTable hinv (1 / 2 : ℚ) (7 / 4) h0 h1 hf0 hf1
  exact ⟨hinv, h0, h1, hf0, hf1, h.2.1, h.2.2⟩

/-- C13: index safety on the non-negative domain.  For a table with the
permutation invariant and `x, y ≥ 0` whose floors fit the `int`, the indices
`xi0, xi1, yi0, yi1` computed by `perlinNoise` lie in `[0, 255]`, both inner
lookups succeed, each outer index `table[xi] + yi` lies in `[0, 510]`, below the
table length 512, every outer lookup succeeds and the call returns a value. -/
theorem perlinNoise_index_safety {α : Type} [LinearOrderedField α] [FloorRing α]
    (self : PerlinNoise) (hinv : PermInvariant self.p) (x y : α)
    (hx : 0 ≤ x) (hy : 0 ≤ y) (hxr : ⌊x⌋ ≤ 2147483647) (hyr : ⌊y⌋ ≤ 2147483647) :
    let xi0 := Int.tmod ⌊x⌋ 256
    let xi1 := Int.tmod (xi0 + 1) 256
    let yi0 := Int.tmod ⌊y⌋ 256
    let yi1 := Int.tmod (yi0 + 1) 256
    PerlinNoise.toInt ⌊x⌋ = .ok ⌊x⌋ ∧ PerlinNoise.toInt ⌊y⌋ = .ok ⌊y⌋ ∧
    (0 ≤ xi0 ∧ xi0 ≤ 255) ∧ (0 ≤ xi1 ∧ xi1 ≤ 255) ∧
    (0 ≤ yi0 ∧ yi0 ≤ 255) ∧ (0 ≤ yi1 ∧ yi1 ≤ 255) ∧
    self.p.length = 512 ∧
    ∃ px0 px1 ha hb hc hd : Int,
      self.index xi0 = .ok px0 ∧ self.index xi1 = .ok px1 ∧
      (0 ≤ px0 + yi0 ∧ px0 + yi0 ≤ 510) ∧ (0 ≤ px1 + yi0 ∧ px1 + yi0 ≤ 510) ∧
      (0 ≤ px0 + yi1 ∧ px0 + yi1 ≤ 510) ∧ (0 ≤ px1 + yi1 ∧ px1 + yi1 ≤ 510) ∧
      self.index (px0 + yi0) = .ok ha ∧ self.index (px1 + yi0) = .ok hb ∧
      self.index (px0 + yi1) = .ok hc ∧ self.index (px1 + yi1) = .ok hd ∧
      ∃ v : α, self.perlinNoise x y = .ok v := by
  intro xi0 xi1 yi0 yi1
  have hfx : 0 ≤ ⌊x⌋ := Int.floor_nonneg.2 hx
  have hfy : 0 ≤ ⌊y⌋ := Int.floor_nonneg.2 hy
  have ex0 : xi0 = ⌊x⌋ % 256 := Int.tmod_eq_emod hfx (by norm_num)
  have ey0 : yi0 = ⌊y⌋ % 256 := Int.tmod_eq_emod hfy (by norm_num)
  have ex1 : xi1 = (xi0 + 1) % 256 := Int.tmod_eq_emod (by omega) (by norm_num)
  have ey1 : yi1 = (yi0 + 1) % 256 := Int.tmod_eq_emod (by omega) (by norm_num)
  have ix0 := index_eq_entry self hinv xi0 (by omega) (by omega)
  have ix1 := index_eq_entry self hinv xi1 (by omega) (by omega)
  have ia := index_eq_entry self hinv (self.entry xi0 + yi0) (by omega) (by omega)
  have ib := index_eq_entry self hinv (self.entry xi1 + yi0) (by omega) (by omega)
  have ic := index_eq_entry self hinv (self.entry xi0 + yi1) (by omega) (by omega)
  have id := index_eq_entry self hinv (self.entry xi1 + yi1) (by omega) (by omega)
  refine ⟨toInt_ok _ hfx hxr, toInt_ok _ hfy hyr, by omega, by omega, by omega, by omega,
    hinv.1, _, _, _, _, _, _, ix0.1, ix1.1, by omega, by omega, by omega, by omega,
    ia.1, ib.1, ic.1, id.1, _, perlinNoise_eq_cellValue self hinv x y hx hy hxr hyr⟩

/-- Witness for C13: the table `swapTable` at `x = 255 + 1/2`, `y = 7/4`. -/
theorem perlinNoise_index_safety_witness :
    PermInvariant swapTable.p ∧ (0 : ℚ) ≤ 511 / 2 ∧ (0 : ℚ) ≤ 7 / 4 ∧
    ⌊(511 / 2 : ℚ)⌋ ≤ 2147483647 ∧ ⌊(7 / 4 : ℚ)⌋ ≤ 2147483647 ∧
    ∃ v : ℚ, swapTable.perlinNoise (511 / 2 : ℚ) (7 / 4) = .ok v := by
  have hinv : PermInvariant swapTable.p := construct_invariant _ _
  have h0 : (0 : ℚ) ≤ 511 / 2 := by norm_num
  have h1 : (0 : ℚ) ≤ 7 / 4 := by norm_num
  have hf0 : ⌊(511 / 2 : ℚ)⌋ ≤ 2147483647 := by
    have e : ⌊(511 / 2 : ℚ)⌋ = 255 := by rw [Int.floor_eq_iff]; norm_num
    rw [e]; norm_num
  have hf1 : ⌊(7 / 4 : ℚ)⌋ ≤ 2147483647 := by
    have e : ⌊(7 / 4 : ℚ)⌋ = 1 := by rw [Int.floor_eq_iff]; norm_num
    rw [e]; norm_num
  obtain ⟨_, _, _, _, _, _, _, _, _, _, _, _, _, _, _, _, _, _, _, _, _, _, _, hv⟩ :=
    perlinNoise_index_safety swapTable hinv (511 / 2 : ℚ) (7 / 4) h0 h1 hf0 hf1
  exact ⟨hinv, h0, h1, hf0, hf1, hv⟩

section OvershootBound

variable {α : Type} [LinearOrderedField α] [FloorRing α]

/-- Inside the domain every octave sample is defined and at most 3 in absolute value. -/
theorem octave_samples_bounded (self : PerlinNoise) (hinv : PermInvariant self.p) (x y : α)
    (n : Nat) (hx : 0 ≤ x) (hy : 0 ≤ y) (hxr : x * 2 ^ (n - 1) < 2147483648)
    (hyr : y * 2 ^ (n - 1) < 2147483648) (i : Nat) (hi : i < n) :
    self.perlinNoise (x * 2 ^ i) (y * 2 ^ i) = .ok (self.noiseValue (x * 2 ^ i) (y * 2 ^ i)) ∧
    |self.noiseValue (x * 2 ^ i) (y * 2 ^ i)| ≤ 3 := by
  have hpow : (2 : α) ^ i ≤ 2 ^ (n - 1) := pow_le_pow_right₀ (by norm_num) (by omega)
  have hpos : (0 : α) ≤ 2 ^ i := (pow_pos (by norm_num) i).le
  have bound : ∀ z : α, 0 ≤ z → z * 2 ^ (n - 1) < 2147483648 → ⌊z * 2 ^ i⌋ ≤ 2147483647 := by
    intro z hz hzr
    have h1 : z * 2 ^ i < 2147483648 := lt_of_le_of_lt (mul_le_mul_of_nonneg_left hpow hz) hzr
    have h2 : ⌊z * 2 ^ i⌋ < 2147483648 := Int.floor_lt.2 (by exact_mod_cast h1)
    omega
  exact noiseValue_abs_le self hinv _ _ (mul_nonneg hx hpos) (mul_nonneg hy hpos)
    (bound x hx hxr) (bound y hy hyr)

/-- Inside the domain `perlinNoiseOctaves` returns a value in `[-1, 2]`. -/
theorem perlinNoiseOctaves_range (self : PerlinNoise) (hinv : PermInvariant self.p) (x y p : α)
    (n : Nat) (hx : 0 ≤ x) (hy : 0 ≤ y) (hn : 1 ≤ n) (hp : 0 < p)
    (hxr : x * 2 ^ (n - 1) < 2147483648) (hyr : y * 2 ^ (n - 1) < 2147483648) :
    ∃ v : α, self.perlinNoiseOctaves x y (n : Int) p = .ok v ∧ -1 ≤ v ∧ v ≤ 2 := by
  have hs := octave_samples_bounded self hinv x y n hx hy hxr hyr
  have hM : 1 ≤ ∑ i in Finset.range n, p ^ i := amplitude_sum_pos p hp n hn
  have hMpos : 0 < ∑ i in Finset.range n, p ^ i := lt_of_lt_of_le zero_lt_one hM
  have hT := weighted_sum_abs_le (fun i => self.noiseValue (x * 2 ^ i) (y * 2 ^ i)) p hp n
    (fun i hi => (hs i hi).2)
  rw [abs_le] at hT
  refine ⟨_, perlinNoiseOctaves_eq self x y p n _ (fun i hi => (hs i hi).1) hMpos.ne', ?_, ?_⟩
  · rw [le_div_iff₀ (by linarith)]
    linarith [hT.1]
  · rw [div_le_iff₀ (by linarith)]
    linarith [hT.2]

/-- Truncating `255 v` for `v` in `[-1, 2]` gives an `int` in `[-255, 510]`. -/
theorem truncToInt_range (v : α) (h0 : -1 ≤ v) (h1 : v ≤ 2) :
    ∃ c : Int, truncToInt (v * 255) = .ok c ∧ -255 ≤ c ∧ c ≤ 510 := by
  unfold truncToInt PerlinNoise.toInt
  by_cases hv : 0 ≤ v * 255
  · have hlo : 0 ≤ ⌊v * 255⌋ := Int.floor_nonneg.2 hv
    have hhi : ⌊v * 255⌋ < 511 := Int.floor_lt.2 (by push_cast; linarith)
    rw [if_pos hv, if_pos ⟨by omega, by omega⟩]
    exact ⟨_, rfl, by omega, by omega⟩
  · have hneg : v * 255 < 0 := lt_of_not_ge hv
    have hlo : -256 < ⌈v * 255⌉ := Int.lt_ceil.2 (by push_cast; linarith)
    have hhi : ⌈v * 255⌉ ≤ 0 := Int.ceil_le.2 (by push_cast; linarith)
    rw [if_neg hv, if_pos ⟨by omega, by omega⟩]
    exact ⟨_, rfl, by omega, by omega⟩

end OvershootBound

section Divisor

variable {α : Type} [LinearOrderedField α] [FloorRing α]

/-- Whatever the samples are, a loop that completes `k` iterations has multiplied
the amplitude by `p^k` and added the `k` amplitudes to `max_value`. -/
theorem octaveLoop_amplitudes (self : PerlinNoise) (x y p : α) (k : Nat) :
    ∀ s s1 : PerlinNoise.OctaveState α, PerlinNoise.octaveLoop self x y p k s = .ok s1 →
      s1.amplitude = s.amplitude * p ^ k ∧
      s1.max_value = s.max_value + ∑ i in Finset.range k, s.amplitude * p ^ i := by
  induction k with
  | zero =>
    intro s s1 h
    simp only [PerlinNoise.octaveLoop, pure, Except.pure] at h
    cases h
    simp
  | succ k ih =>
    intro s s1 h
    simp only [PerlinNoise.octaveLoop, PerlinNoise.octaveStep, bind, Except.bind, pure,
      Except.pure] at h
    cases hs : self.perlinNoise (x * s.frequency) (y * s.frequency) with
    | error e => rw [hs] at h; cases h
    | ok v =>
      rw [hs] at h
      obtain ⟨ha, hm⟩ := ih _ _ h
      simp only at ha hm
      refine ⟨by rw [ha, pow_succ']; ring, ?_⟩
      rw [hm, Finset.sum_range_succ' _ k]
      simp only [pow_zero, mul_one, pow_succ']
      rw [add_assoc]
      congr 1
      rw [add_comm]
      congr 1
      apply Finset.sum_congr rfl
      intro i _
      ring

/-- With no iteration the loop leaves its initial state: `total = 0`, `max_value = 0`. -/
theorem perlinNoiseOctaves_nonpos (self : PerlinNoise) (x y p : α) (octaves : Int)
    (h : octaves ≤ 0) :
    PerlinNoise.octaveLoop self x y p octaves.toNat PerlinNoise.octaveInit =
      .ok PerlinNoise.octaveInit ∧
    self.perlinNoiseOctaves x y octaves p = .error Fault.divByZero := by
  have h0 : octaves.toNat = 0 := Int.toNat_eq_zero.2 h
  refine ⟨by rw [h0]; rfl, ?_⟩
  simp only [PerlinNoise.perlinNoiseOctaves, h0, PerlinNoise.octaveLoop, PerlinNoise.octaveInit,
    bind, Except.bind, pure, Except.pure, mul_zero]
  rfl

end Divisor

/-- C12: for every persistence `p > 0` and all `x, y ≥ 0`, the divisor
`2 * max_value` of the final division in `perlinNoiseOctaves` is zero if and only
if `octaves ≤ 0`.  With `octaves ≤ 0` the loop body never runs, `total = 0` and
`max_value = 0` (the division is `0 / 0`); with `octaves ≥ 1` a completed loop has
`max_value ≥ 1` and the division returns its quotient; and the loop does
complete on a table with the permutation invariant when the sample points are
inside the `int` range. -/
theorem divisor_zero_iff_no_octave {α : Type} [LinearOrderedField α] [FloorRing α]
    (self : PerlinNoise) (x y p : α) (octaves : Int) (hx : 0 ≤ x) (hy : 0 ≤ y) (hp : 0 < p) :
    (octaves ≤ 0 →
      PerlinNoise.octaveLoop self x y p octaves.toNat PerlinNoise.octaveInit =
        .ok PerlinNoise.octaveInit ∧
      (PerlinNoise.octaveInit : PerlinNoise.OctaveState α).total = 0 ∧
      (PerlinNoise.octaveInit : PerlinNoise.OctaveState α).max_value = 0 ∧
      self.perlinNoiseOctaves x y octaves p = .error Fault.divByZero) ∧
    (∀ s : PerlinNoise.OctaveState α,
      PerlinNoise.octaveLoop self x y p octaves.toNat PerlinNoise.octaveInit = .ok s →
      (2 * s.max_value = 0 ↔ octaves ≤ 0) ∧
      (1 ≤ octaves → 1 ≤ s.max_value ∧
        self.perlinNoiseOctaves x y octaves p =
          .ok ((s.total + s.max_value) / (2 * s.max_value)))) ∧
    (PermInvariant self.p → 1 ≤ octaves →
      x * 2 ^ (octaves.toNat - 1) < 2147483648 → y * 2 ^ (octaves.toNat - 1) < 2147483648 →
      ∃ s : PerlinNoise.OctaveState α,
        PerlinNoise.octaveLoop self x y p octaves.toNat PerlinNoise.octaveInit = .ok s) := by
  refine ⟨?_, ?_, ?_⟩
  · intro h
    obtain ⟨h1, h2⟩ := perlinNoiseOctaves_nonpos self x y p octaves h
    exact ⟨h1, rfl, rfl, h2⟩
  · intro s hs
    have hm := (octaveLoop_amplitudes self x y p octaves.toNat _ _ hs).2
    simp only [PerlinNoise.octaveInit, zero_add, one_mul] at hm
    by_cases hoct : octaves ≤ 0
    · have h0 : octaves.toNat = 0 := Int.toNat_eq_zero.2 hoct
      rw [h0] at hm
      simp only [Finset.range_zero, Finset.sum_empty] at hm
      refine ⟨⟨fun _ => hoct, fun _ => by rw [hm, mul_zero]⟩, fun h1 => ?_⟩
      omega
    · have hn : 1 ≤ octaves.toNat := by omega
      have hM : 1 ≤ s.max_value := by rw [hm]; exact amplitude_sum_pos p hp _ hn
      have hne : 2 * s.max_value ≠ 0 := by
        have hpos : 0 < 2 * s.max_value := by linarith
        exact hpos.ne'
      refine ⟨⟨fun h => absurd h hne, fun h => absurd h hoct⟩, fun _ => ⟨hM, ?_⟩⟩
      simp only [PerlinNoise.perlinNoiseOctaves, hs, bind, Except.bind]
      rw [if_neg hne]
      rfl
  · intro hinv hoct hxr hyr
    have hs := octave_samples_bounded self hinv x y octaves.toNat hx hy hxr hyr
    exact ⟨_, octaveLoop_eq self x y p octaves.toNat PerlinNoise.octaveInit
      (fun i => self.noiseValue (x * 2 ^ i) (y * 2 ^ i)) (by
        intro i hi
        simpa [PerlinNoise.octaveInit] using (hs i hi).1)⟩

/-- Witness for C12: the table `swapTable` at `x = y = 1/2` with persistence `3/4`,
for `octaves = 0` (zero divisor) and for `octaves = 2` (the loop completes). -/
theorem divisor_zero_iff_no_octave_witness :
    (0 : ℚ) ≤ 1 / 2 ∧ (0 : ℚ) < 3 / 4 ∧
    swapTable.perlinNoiseOctaves (1 / 2 : ℚ) (1 / 2) 0 (3 / 4) = .error Fault.divByZero ∧
    ∃ s : PerlinNoise.OctaveState ℚ,
      PerlinNoise.octaveLoop swapTable (1 / 2 : ℚ) (1 / 2) (3 / 4) (2 : Int).toNat
        PerlinNoise.octaveInit = .ok s := by
  have h0 : (0 : ℚ) ≤ 1 / 2 := by norm_num
  have hp : (0 : ℚ) < 3 / 4 := by norm_num
  refine ⟨h0, hp,
    ((divisor_zero_iff_no_octave swapTable (1 / 2 : ℚ) (1 / 2) (3 / 4) 0 h0 h0 hp).1 le_rfl).2.2.2,
    (divisor_zero_iff_no_octave swapTable (1 / 2 : ℚ) (1 / 2) (3 / 4) 2 h0 h0 hp).2.2
      (construct_invariant _ _) (by norm_num) ?_ ?_⟩
  · have e : (2 : Int).toNat - 1 = 1 := rfl
    rw [e]; norm_num
  · have e : (2 : Int).toNat - 1 = 1 := rfl
    rw [e]; norm_num

section Negative

variable {α : Type} [LinearOrderedField α] [FloorRing α]

/-- The truncating remainder of a negative `int` that is not a multiple of 256. -/
theorem tmod_256_of_neg (z : Int) (hneg : z < 0) (hm : ¬ (256 ∣ z)) :
    -255 ≤ Int.tmod z 256 ∧ Int.tmod z 256 ≤ -1 := by
  obtain ⟨m, rfl⟩ := Int.eq_negSucc_of_lt_zero hneg
  have e : Int.tmod (Int.negSucc m) 256 = -(((m + 1) % 256 : Nat) : Int) := rfl
  rw [e]
  rw [Int.negSucc_eq] at hm
  omega

theorem index_of_neg (self : PerlinNoise) (k : Int) (h : k < 0) :
    self.index k = .error Fault.outOfBounds := by
  unfold PerlinNoise.index
  rw [if_neg (by omega)]

theorem toInt_ok_of_range (z : Int) (h0 : -2147483648 ≤ z) (h1 : z ≤ 2147483647) :
    PerlinNoise.toInt z = .ok z := by
  unfold PerlinNoise.toInt
  rw [if_pos ⟨h0, h1⟩]

/-- The result of `perlinNoise` when both conversions and all six lookups succeed. -/
theorem perlinNoise_of_lookups (self : PerlinNoise) (x y : α) (px0 px1 ha hb hc hd : Int)
    (hx : PerlinNoise.toInt ⌊x⌋ = .ok ⌊x⌋) (hy : PerlinNoise.toInt ⌊y⌋ = .ok ⌊y⌋)
    (h0 : self.index (Int.tmod ⌊x⌋ 256) = .ok px0)
    (h1 : self.index (Int.tmod (Int.tmod ⌊x⌋ 256 + 1) 256) = .ok px1)
    (hia : self.index (px0 + Int.tmod ⌊y⌋ 256) = .ok ha)
    (hib : self.index (px1 + Int.tmod ⌊y⌋ 256) = .ok hb)
    (hic : self.index (px0 + Int.tmod (Int.tmod ⌊y⌋ 256 + 1) 256) = .ok hc)
    (hid : self.index (px1 + Int.tmod (Int.tmod ⌊y⌋ 256 + 1) 256) = .ok hd) :
    self.perlinNoise x y = .ok
      (PerlinNoise.lerp (PerlinNoise.fade (y - ⌊y⌋))
        (PerlinNoise.lerp (PerlinNoise.fade (x - ⌊x⌋))
          (PerlinNoise.grad ha (x - ⌊x⌋) (y - ⌊y⌋))
          (PerlinNoise.grad hb (x - ⌊x⌋ - 1) (y - ⌊y⌋)))
        (PerlinNoise.lerp (PerlinNoise.fade (x - ⌊x⌋))
          (PerlinNoise.grad hc (x - ⌊x⌋) (y - ⌊y⌋ - 1))
          (PerlinNoise.grad hd (x - ⌊x⌋ - 1) (y - ⌊y⌋ - 1)))) := by
  unfold PerlinNoise.perlinNoise
  simp only [hx, hy, h0, h1, hia, hib, hic, hid, bind, Except.bind, pure, Except.pure]

/-- A negative `xi0` makes the first table lookup of `perlinNoise` fail. -/
theorem perlinNoise_fault_of_neg_x (self : PerlinNoise) (x y : α)
    (hneg : Int.tmod ⌊x⌋ 256 < 0) : ∃ e : Fault, self.perlinNoise x y = .error e := by
  unfold PerlinNoise.perlinNoise
  cases hx : PerlinNoise.toInt ⌊x⌋ with
  | error e => exact ⟨e, by simp only [bind, Except.bind]⟩
  | ok zx =>
    have hzx : zx = ⌊x⌋ := by
      unfold PerlinNoise.toInt at hx
      split at hx
      · cases hx; rfl
      · cases hx
    subst hzx
    cases hy : PerlinNoise.toInt ⌊y⌋ with
    | error e => exact ⟨e, by simp only [bind, Except.bind]⟩
    | ok zy =>
      exact ⟨Fault.outOfBounds, by
        simp only [bind, Except.bind, index_of_neg self _ hneg]⟩

end Negative

section NegativeY

variable {α : Type} [LinearOrderedField α] [FloorRing α]

theorem tmod_256_of_small (k : Int) (h0 : -255 ≤ k) (h1 : k ≤ 0) : Int.tmod k 256 = k := by
  rcases lt_or_eq_of_le h1 with h | h
  · obtain ⟨m, rfl⟩ := Int.eq_negSucc_of_lt_zero h
    have e : Int.tmod (Int.negSucc m) 256 = -(((m + 1) % 256 : Nat) : Int) := rfl
    rw [e]
    rw [Int.negSucc_eq] at h0 ⊢
    omega
  · rw [h]; rfl

/-- The lookups of `perlinNoise` for `x ≥ 0` and a negative `yi0`: each outer
index is `table[xi] + yi` with `table[xi]` in `[0, 255]`, and the call returns a
value exactly when `table[xi0] + yi0` and `table[xi1] + yi0` are not negative. -/
theorem perlinNoise_neg_y (self : PerlinNoise) (hinv : PermInvariant self.p) (x y : α)
    (hx : 0 ≤ x) (hxr : ⌊x⌋ ≤ 2147483647) (hy0 : -255 ≤ Int.tmod ⌊y⌋ 256)
    (hy1 : Int.tmod ⌊y⌋ 256 ≤ -1) (hyr : -2147483648 ≤ ⌊y⌋) (hyneg : ⌊y⌋ < 0) :
    ∃ px0 px1 : Int,
      self.index (Int.tmod ⌊x⌋ 256) = .ok px0 ∧
      self.index (Int.tmod (Int.tmod ⌊x⌋ 256 + 1) 256) = .ok px1 ∧
      (-255 ≤ px0 + Int.tmod ⌊y⌋ 256 ∧ px0 + Int.tmod ⌊y⌋ 256 ≤ 254) ∧
      (-255 ≤ px1 + Int.tmod ⌊y⌋ 256 ∧ px1 + Int.tmod ⌊y⌋ 256 ≤ 254) ∧
      (px0 + Int.tmod ⌊y⌋ 256 < 0 ∨ px1 + Int.tmod ⌊y⌋ 256 < 0 →
        self.perlinNoise x y = .error Fault.outOfBounds) ∧
      (0 ≤ px0 + Int.tmod ⌊y⌋ 256 → 0 ≤ px1 + Int.tmod ⌊y⌋ 256 →
        ∃ v : α, self.perlinNoise x y = .ok v) := by
  have hfx : 0 ≤ ⌊x⌋ := Int.floor_nonneg.2 hx
  have ex0 : Int.tmod ⌊x⌋ 256 = ⌊x⌋ % 256 := Int.tmod_eq_emod hfx (by norm_num)
  have ex1 : Int.tmod (Int.tmod ⌊x⌋ 256 + 1) 256 = (Int.tmod ⌊x⌋ 256 + 1) % 256 :=
    Int.tmod_eq_emod (by omega) (by norm_num)
  have ey1 : Int.tmod (Int.tmod ⌊y⌋ 256 + 1) 256 = Int.tmod ⌊y⌋ 256 + 1 :=
    tmod_256_of_small _ (by omega) (by omega)
  have tx := toInt_ok _ hfx hxr
  have ty := toInt_ok_of_range ⌊y⌋ hyr (by omega)
  have ix0 := index_eq_entry self hinv (Int.tmod ⌊x⌋ 256) (by omega) (by omega)
  have ix1 := index_eq_entry self hinv (Int.tmod (Int.tmod ⌊x⌋ 256 + 1) 256)
    (by omega) (by omega)
  obtain ⟨e0, l0, u0⟩ := ix0
  obtain ⟨e1, l1, u1⟩ := ix1
  refine ⟨_, _, e0, e1, by omega, by omega, ?_, ?_⟩
  · intro hneg
    unfold PerlinNoise.perlinNoise
    by_cases ha : self.entry (Int.tmod ⌊x⌋ 256) + Int.tmod ⌊y⌋ 256 < 0
    · simp only [tx, ty, e0, bind, Except.bind, index_of_neg self _ ha]
    · have ia := index_eq_entry self hinv (self.entry (Int.tmod ⌊x⌋ 256) + Int.tmod ⌊y⌋ 256)
        (by omega) (by omega)
      have hb : self.entry (Int.tmod (Int.tmod ⌊x⌋ 256 + 1) 256) + Int.tmod ⌊y⌋ 256 < 0 := by
        omega
      simp only [tx, ty, e0, e1, ia.1, bind, Except.bind, index_of_neg self _ hb]
  · intro ha hb
    have ia := index_eq_entry self hinv _ ha (by omega)
    have ib := index_eq_entry self hinv _ hb (by omega)
    have ic := index_eq_entry self hinv
      (self.entry (Int.tmod ⌊x⌋ 256) + (Int.tmod ⌊y⌋ 256 + 1)) (by omega) (by omega)
    have id := index_eq_entry self hinv
      (self.entry (Int.tmod (Int.tmod ⌊x⌋ 256 + 1) 256) + (Int.tmod ⌊y⌋ 256 + 1))
      (by omega) (by omega)
    exact ⟨_, perlinNoise_of_lookups self x y _ _ _ _ _ _ tx ty e0 e1 ia.1 ib.1
      (by rw [ey1]; exact ic.1) (by rw [ey1]; exact id.1)⟩

end NegativeY

section NegativeExample

set_option maxRecDepth 100000 in
theorem swapTable_lookups :
    swapTable.index 200 = .ok 200 ∧ swapTable.index 201 = .ok 201 ∧
    swapTable.index 199 = .ok 199 := by
  refine ⟨?_, ?_, ?_⟩ <;> rfl

theorem floor_neg_half : ⌊(-1 / 2 : ℚ)⌋ = -1 := by
  rw [Int.floor_eq_iff]; norm_num

theorem floor_401_half : ⌊(401 / 2 : ℚ)⌋ = 200 := by
  rw [Int.floor_eq_iff]; norm_num

theorem swapTable_neg_y : swapTable.perlinNoise (401 / 2 : ℚ) (-1 / 2) = .ok (-1 / 2) := by
  obtain ⟨h200, h201, h199⟩ := swapTable_lookups
  have e0 : Int.tmod (200 : Int) 256 = 200 := rfl
  have e1 : Int.tmod ((200 : Int) + 1) 256 = 201 := rfl
  have e2 : Int.tmod (-1 : Int) 256 = -1 := rfl
  have e3 : Int.tmod ((-1 : Int) + 1) 256 = 0 := rfl
  have h := perlinNoise_of_lookups swapTable (401 / 2 : ℚ) (-1 / 2) 200 201 199 200 200 201
    (by rw [floor_401_half]; rfl) (by rw [floor_neg_half]; rfl)
    (by rw [floor_401_half, e0]; exact h200)
    (by rw [floor_401_half, e0, e1]; exact h201)
    (by rw [floor_neg_half, e2]; exact h199)
    (by rw [floor_neg_half, e2]; exact h200)
    (by rw [floor_neg_half, e2, e3]; exact h200)
    (by rw [floor_neg_half, e2, e3]; exact h201)
  rw [h, floor_401_half, floor_neg_half]
  refine congrArg Except.ok ?_
  simp only [grad_eq_dir]
  norm_num [PerlinNoise.lerp, PerlinNoise.fade, gradDir]

end NegativeExample

/-- C14 as stated fails for `y`: on the table `0, 2, 1, 3, ..., 255` (twice) at
`x = 200.5`, `y = -0.5` the floor of `y` is `-1`, negative and not a multiple of
256, and `yi0 = -1`, yet the outer indices `200 + (-1)`, `201 + (-1)`, `200 + 0`,
`201 + 0` are in range and `perlinNoise` returns the value `-1/2`. -/
theorem negative_y_need_not_fail :
    PermInvariant swapTable.p ∧
    ⌊(-1 / 2 : ℚ)⌋ = -1 ∧ ¬ ((256 : Int) ∣ ⌊(-1 / 2 : ℚ)⌋) ∧
    Int.tmod ⌊(-1 / 2 : ℚ)⌋ 256 = -1 ∧
    swapTable.index (Int.tmod ⌊(401 / 2 : ℚ)⌋ 256) = .ok 200 ∧
    swapTable.index (200 + Int.tmod ⌊(-1 / 2 : ℚ)⌋ 256) = .ok 199 ∧
    swapTable.perlinNoise (401 / 2 : ℚ) (-1 / 2) = .ok (-1 / 2) := by
  obtain ⟨h200, _, h199⟩ := swapTable_lookups
  refine ⟨construct_invariant _ _, floor_neg_half, ?_, ?_, ?_, ?_, swapTable_neg_y⟩
  · rw [floor_neg_half]; decide
  · rw [floor_neg_half]; rfl
  · rw [floor_401_half]; exact h200
  · rw [floor_neg_half]; exact h199

/-- C14 (amended): negative coordinates.  For every `x` whose floor is negative,
fits the `int` and is not a multiple of 256, `xi0 = floor x % 256` lies in
`[-255, -1]`, the lookup `table[xi0]` is out of range and `perlinNoise` fails.  For
`x ≥ 0` on a table with the permutation invariant and `y` with such a floor,
`yi0` lies in `[-255, -1]` and the outer indices `table[xi] + yi0` lie in
`[-255, 254]`: `perlinNoise` fails with an out-of-range lookup when one of them
is negative and returns a value otherwise. -/
theorem negative_coordinate_indices {α : Type} [LinearOrderedField α] [FloorRing α]
    (self : PerlinNoise) (x y : α) :
    (⌊x⌋ < 0 → -2147483648 ≤ ⌊x⌋ → ¬ ((256 : Int) ∣ ⌊x⌋) →
      (-255 ≤ Int.tmod ⌊x⌋ 256 ∧ Int.tmod ⌊x⌋ 256 ≤ -1) ∧
      self.index (Int.tmod ⌊x⌋ 256) = .error Fault.outOfBounds ∧
      ∃ e : Fault, self.perlinNoise x y = .error e) ∧
    (PermInvariant self.p → 0 ≤ x → ⌊x⌋ ≤ 2147483647 →
      ⌊y⌋ < 0 → -2147483648 ≤ ⌊y⌋ → ¬ ((256 : Int) ∣ ⌊y⌋) →
      (-255 ≤ Int.tmod ⌊y⌋ 256 ∧ Int.tmod ⌊y⌋ 256 ≤ -1) ∧
      ∃ px0 px1 : Int,
        self.index (Int.tmod ⌊x⌋ 256) = .ok px0 ∧
        self.index (Int.tmod (Int.tmod ⌊x⌋ 256 + 1) 256) = .ok px1 ∧
        (-255 ≤ px0 + Int.tmod ⌊y⌋ 256 ∧ px0 + Int.tmod ⌊y⌋ 256 ≤ 254) ∧
        (-255 ≤ px1 + Int.tmod ⌊y⌋ 256 ∧ px1 + Int.tmod ⌊y⌋ 256 ≤ 254) ∧
        (px0 + Int.tmod ⌊y⌋ 256 < 0 ∨ px1 + Int.tmod ⌊y⌋ 256 < 0 →
          self.perlinNoise x y = .error Fault.outOfBounds) ∧
        (0 ≤ px0 + Int.tmod ⌊y⌋ 256 → 0 ≤ px1 + Int.tmod ⌊y⌋ 256 →
          ∃ v : α, self.perlinNoise x y = .ok v)) := by
  constructor
  · intro hneg _ hm
    have hr := tmod_256_of_neg ⌊x⌋ hneg hm
    exact ⟨hr, index_of_neg self _ (by omega), perlinNoise_fault_of_neg_x self x y (by omega)⟩
  · intro hinv hx hxr hneg hyr hm
    have hr := tmod_256_of_neg ⌊y⌋ hneg hm
    exact ⟨hr, perlinNoise_neg_y self hinv x y hx hxr hr.1 hr.2 hyr hneg⟩

/-- Witness for the amended C14: `x = -1/2` on the table `swapTable`, and
`x = 1/2`, `y = -1/2` on the same table. -/
theorem negative_coordinate_indices_witness :
    (⌊(-1 / 2 : ℚ)⌋ < 0 ∧ -2147483648 ≤ ⌊(-1 / 2 : ℚ)⌋ ∧ ¬ ((256 : Int) ∣ ⌊(-1 / 2 : ℚ)⌋)) ∧
    swapTable.index (Int.tmod ⌊(-1 / 2 : ℚ)⌋ 256) = .error Fault.outOfBounds ∧
    (∃ e : Fault, swapTable.perlinNoise (-1 / 2 : ℚ) (1 / 2) = .error e) ∧
    PermInvariant swapTable.p ∧ (0 : ℚ) ≤ 1 / 2 ∧ ⌊(1 / 2 : ℚ)⌋ ≤ 2147483647 ∧
    -255 ≤ Int.tmod ⌊(-1 / 2 : ℚ)⌋ 256 ∧ Int.tmod ⌊(-1 / 2 : ℚ)⌋ 256 ≤ -1 := by
  have hneg : ⌊(-1 / 2 : ℚ)⌋ < 0 := by rw [floor_neg_half]; norm_num
  have hr : -2147483648 ≤ ⌊(-1 / 2 : ℚ)⌋ := by rw [floor_neg_half]; norm_num
  have hm : ¬ ((256 : Int) ∣ ⌊(-1 / 2 : ℚ)⌋) := by rw [floor_neg_half]; decide
  have hinv : PermInvariant swapTable.p := construct_invariant _ _
  have h0 : (0 : ℚ) ≤ 1 / 2 := by norm_num
  have hf : ⌊(1 / 2 : ℚ)⌋ ≤ 2147483647 := by norm_num
  have hX := (negative_coordinate_indices swapTable (-1 / 2 : ℚ) (1 / 2)).1 hneg hr hm
  have hY := (negative_coordinate_indices swapTable (1 / 2 : ℚ) (-1 / 2)).2 hinv h0 hf hneg hr hm
  exact ⟨⟨hneg, hr, hm⟩, hX.2.1, hX.2.2, hinv, h0, hf, hY.1.1, hY.1.2⟩

section ImageLoop

variable {α : Type} [LinearOrderedField α] [FloorRing α]

theorem nested_loops_eq (noise : PerlinNoise) (scale : α) (octaves : Int) (persistence : α)
    (h : Nat) (cols : List Nat) (image : Image) :
    cols.foldlM (fun img i => (List.range h).foldlM
        (fun img1 j => pixelStep noise scale octaves persistence i j img1) img) image =
      (List.product cols (List.range h)).foldlM
        (fun img t => pixelStep noise scale octaves persistence t.1 t.2 img) image := by
  induction cols generalizing image with
  | nil => rfl
  | cons i rest ih =>
    have hc : List.product (i :: rest) (List.range h) =
        List.map (fun j => (i, j)) (List.range h) ++ List.product rest (List.range h) :=
      List.product_cons i rest (List.range h)
    rw [hc, List.foldlM_append, List.foldlM_cons, List.foldlM_map]
    apply bind_congr
    intro img
    exact ih img

/-- The two nested loops visit the pixels in the order of `gridOrder`. -/
theorem generateNoiseImage_eq_writePixels (image : Image) (noise : PerlinNoise) (scale : α)
    (octaves : Int) (persistence : α) :
    generateNoiseImage image noise scale octaves persistence =
      writePixels noise scale octaves persistence (gridOrder image.width image.height) image :=
  nested_loops_eq noise scale octaves persistence image.height (List.range image.width) image

/-- One pixel of the loop: compute the colour value, then write the grey pixel. -/
theorem pixelStep_eq (noise : PerlinNoise) (scale : α) (octaves : Int) (persistence : α)
    (i j : Nat) (image : Image) :
    pixelStep noise scale octaves persistence i j image =
      match colorValue noise scale octaves persistence i j with
      | .ok c => image.setPixel i j (greyColor c)
      | .error e => .error e := by
  simp only [pixelStep, colorValue, bind, Except.bind]
  cases noise.perlinNoiseOctaves ((i : α) * scale) ((j : α) * scale) octaves persistence with
  | error e => rfl
  | ok v =>
    simp only
    cases truncToInt (v * 255) <;> rfl

theorem writePixels_cons (noise : PerlinNoise) (scale : α) (octaves : Int) (persistence : α)
    (t : Nat × Nat) (rest : List (Nat × Nat)) (image : Image) :
    writePixels noise scale octaves persistence (t :: rest) image =
      match pixelStep noise scale octaves persistence t.1 t.2 image with
      | .ok img => writePixels noise scale octaves persistence rest img
      | .error e => .error e := by
  unfold writePixels
  rw [List.foldlM_cons]
  cases pixelStep noise scale octaves persistence t.1 t.2 image <;> rfl

theorem mem_gridOrder (w h : Nat) (t : Nat × Nat) : t ∈ gridOrder w h ↔ t.1 < w ∧ t.2 < h := by
  obtain ⟨i, j⟩ := t
  have h1 : (i, j) ∈ List.product (List.range w) (List.range h) ↔
      i ∈ List.range w ∧ j ∈ List.range h := List.mem_product
  unfold gridOrder
  rw [h1, List.mem_range, List.mem_range]

theorem gridOrder_nodup (w h : Nat) : (gridOrder w h).Nodup :=
  (List.nodup_range w).product (List.nodup_range h)

/-- The storage offset `x + y * width` determines the position inside the grid. -/
theorem offset_injective (w : Nat) (a b : Nat × Nat) (ha : a.1 < w) (hb : b.1 < w)
    (h : a.1 + a.2 * w = b.1 + b.2 * w) : a = b := by
  have hw : 0 < w := by omega
  have h1 : (a.1 + a.2 * w) % w = a.1 := by
    rw [Nat.add_mul_mod_self_right, Nat.mod_eq_of_lt ha]
  have h2 : (b.1 + b.2 * w) % w = b.1 := by
    rw [Nat.add_mul_mod_self_right, Nat.mod_eq_of_lt hb]
  have h3 : (a.1 + a.2 * w) / w = a.2 := by
    rw [Nat.add_mul_div_right _ _ hw, Nat.div_eq_of_lt ha, Nat.zero_add]
  have h4 : (b.1 + b.2 * w) / w = b.2 := by
    rw [Nat.add_mul_div_right _ _ hw, Nat.div_eq_of_lt hb, Nat.zero_add]
  rw [h] at h1 h3
  exact Prod.ext (h1.symm.trans h2) (h3.symm.trans h4)

theorem offset_lt (w h : Nat) (t : Nat × Nat) (h1 : t.1 < w) (h2 : t.2 < h) :
    t.1 + t.2 * w < w * h := by
  have h3 : t.2 * w + w ≤ h * w := by
    have h4 : (t.2 + 1) * w ≤ h * w := Nat.mul_le_mul_right w h2
    rw [Nat.add_mul, Nat.one_mul] at h4
    exact h4
  rw [Nat.mul_comm w h]
  omega

theorem setPixel_ok (image img1 : Image) (x y : Nat) (c : Color)
    (h : image.setPixel x y c = .ok img1) :
    x + y * image.width < image.pixels.length ∧
    img1 = { image with pixels := image.pixels.set (x + y * image.width) c } := by
  unfold Image.setPixel at h
  split at h
  · rename_i hlt
    cases h
    exact ⟨hlt, rfl⟩
  · cases h

/-- A successful step computed a colour value and wrote its grey pixel. -/
theorem pixelStep_ok (noise : PerlinNoise) (scale : α) (octaves : Int) (persistence : α)
    (i j : Nat) (image img1 : Image)
    (h : pixelStep noise scale octaves persistence i j image = .ok img1) :
    ∃ c : Int, colorValue noise scale octaves persistence i j = .ok c ∧
      i + j * image.width < image.pixels.length ∧
      img1 = { image with pixels := image.pixels.set (i + j * image.width) (greyColor c) } := by
  rw [pixelStep_eq] at h
  cases hc : colorValue noise scale octaves persistence i j with
  | error e => rw [hc] at h; cases h
  | ok c =>
    rw [hc] at h
    exact ⟨c, rfl, setPixel_ok _ _ _ _ _ h⟩

/-- What a completed run over distinct grid positions leaves in the image: the
size is unchanged, every visited position holds its grey pixel, and every other
stored pixel is untouched. -/
theorem writePixels_result (noise : PerlinNoise) (scale : α) (octaves : Int) (persistence : α)
    (w : Nat) (L : List (Nat × Nat)) :
    ∀ image img1 : Image, L.Nodup → (∀ t ∈ L, t.1 < w) → image.width = w →
      writePixels noise scale octaves persistence L image = .ok img1 →
      img1.width = image.width ∧ img1.height = image.height ∧
      img1.pixels.length = image.pixels.length ∧
      (∀ t ∈ L, ∃ c : Int, colorValue noise scale octaves persistence t.1 t.2 = .ok c ∧
        t.1 + t.2 * w < image.pixels.length ∧
        img1.pixels[t.1 + t.2 * w]? = some (greyColor c)) ∧
      (∀ k, (∀ t ∈ L, t.1 + t.2 * w ≠ k) → img1.pixels[k]? = image.pixels[k]?) := by
  induction L with
  | nil =>
    intro image img1 _ _ _ h
    have e : img1 = image := by
      simp only [writePixels, List.foldlM_nil, pure, Except.pure] at h
      cases h; rfl
    subst e
    exact ⟨rfl, rfl, rfl, fun t ht => absurd ht (List.not_mem_nil t), fun _ _ => rfl⟩
  | cons t rest ih =>
    intro image img1 hnd hgrid hw h
    rw [writePixels_cons] at h
    cases hs : pixelStep noise scale octaves persistence t.1 t.2 image with
    | error e => rw [hs] at h; cases h
    | ok img2 =>
      rw [hs] at h
      obtain ⟨c, hc, hlt, himg⟩ := pixelStep_ok noise scale octaves persistence _ _ _ _ hs
      have hw2 : img2.width = w := by rw [himg]; exact hw
      have hlen2 : img2.pixels.length = image.pixels.length := by rw [himg]; simp
      obtain ⟨r1, r2, r3, r4, r5⟩ := ih img2 img1 (List.nodup_cons.1 hnd).2
        (fun u hu => hgrid u (List.mem_cons_of_mem _ hu)) hw2 h
      have hpix2 : ∀ k, img2.pixels[k]? =
          if t.1 + t.2 * w = k then some (greyColor c) else image.pixels[k]? := by
        intro k
        rw [himg, hw]
        simp only [List.getElem?_set]
        split
        · rename_i hk
          rw [if_pos (by rw [hw] at hlt; exact hlt)]
        · rfl
      refine ⟨by rw [r1, himg], by rw [r2, himg], by rw [r3, hlen2], ?_, ?_⟩
      · intro u hu
        rcases List.mem_cons.1 hu with rfl | hu
        · refine ⟨c, hc, by rw [← hw]; exact hlt, ?_⟩
          rw [r5 _ (fun v hv hvu => ?_), hpix2, if_pos rfl]
          have hvt : v = u := offset_injective w v u (hgrid v (List.mem_cons_of_mem _ hv))
            (hgrid u (List.mem_cons_self _ _)) hvu
          exact (List.nodup_cons.1 hnd).1 (hvt ▸ hv)
        · obtain ⟨c1, hc1, hlt1, hp1⟩ := r4 u hu
          exact ⟨c1, hc1, by rw [← hlen2]; exact hlt1, hp1⟩
      · intro k hk
        rw [r5 k (fun u hu => hk u (List.mem_cons_of_mem _ hu)), hpix2,
          if_neg (hk t (List.mem_cons_self _ _))]

/-- The run completes when every colour value is defined and every visited
position is inside the pixel storage. -/
theorem writePixels_defined (noise : PerlinNoise) (scale : α) (octaves : Int) (persistence : α)
    (L : List (Nat × Nat)) :
    ∀ image : Image,
      (∀ t ∈ L, ∃ c : Int, colorValue noise scale octaves persistence t.1 t.2 = .ok c) →
      (∀ t ∈ L, t.1 + t.2 * image.width < image.pixels.length) →
      ∃ img1 : Image, writePixels noise scale octaves persistence L image = .ok img1 := by
  induction L with
  | nil => intro image _ _; exact ⟨image, rfl⟩
  | cons t rest ih =>
    intro image hc hlt
    obtain ⟨c, hct⟩ := hc t (List.mem_cons_self _ _)
    have hs : pixelStep noise scale octaves persistence t.1 t.2 image =
        .ok { image with pixels := image.pixels.set (t.1 + t.2 * image.width) (greyColor c) } := by
      rw [pixelStep_eq, hct]
      simp only [Image.setPixel]
      rw [if_pos (hlt t (List.mem_cons_self _ _))]
    rw [writePixels_cons, hs]
    exact ih _ (fun u hu => hc u (List.mem_cons_of_mem _ hu))
      (fun u hu => by simpa using hlt u (List.mem_cons_of_mem _ hu))

/-- Two images of the same width and storage length fail together, with the same
fault, or complete together. -/
theorem writePixels_same_outcome (noise : PerlinNoise) (scale : α) (octaves : Int)
    (persistence : α) (L : List (Nat × Nat)) :
    ∀ a b : Image, a.width = b.width → a.pixels.length = b.pixels.length →
      (∀ e, writePixels noise scale octaves persistence L a = .error e →
        writePixels noise scale octaves persistence L b = .error e) ∧
      (∀ a1, writePixels noise scale octaves persistence L a = .ok a1 →
        ∃ b1, writePixels noise scale octaves persistence L b = .ok b1) := by
  induction L with
  | nil =>
    intro a b _ _
    refine ⟨fun e h => ?_, fun _ _ => ⟨b, rfl⟩⟩
    simp only [writePixels, List.foldlM_nil, pure, Except.pure] at h
    cases h
  | cons t rest ih =>
    intro a b hw hlen
    cases hc : colorValue noise scale octaves persistence t.1 t.2 with
    | error e =>
      have ha : writePixels noise scale octaves persistence (t :: rest) a = .error e := by
        rw [writePixels_cons, pixelStep_eq, hc]
      have hb : writePixels noise scale octaves persistence (t :: rest) b = .error e := by
        rw [writePixels_cons, pixelStep_eq, hc]
      rw [ha, hb]
      exact ⟨fun e1 h => h, fun a1 h => by cases h⟩
    | ok c =>
      by_cases hlt : t.1 + t.2 * b.width < b.pixels.length
      · have ha : writePixels noise scale octaves persistence (t :: rest) a =
            writePixels noise scale octaves persistence rest
              { a with pixels := a.pixels.set (t.1 + t.2 * a.width) (greyColor c) } := by
          rw [writePixels_cons, pixelStep_eq, hc]
          simp only [Image.setPixel]
          rw [if_pos (by rw [hw, hlen]; exact hlt)]
        have hb : writePixels noise scale octaves persistence (t :: rest) b =
            writePixels noise scale octaves persistence rest
              { b with pixels := b.pixels.set (t.1 + t.2 * b.width) (greyColor c) } := by
          rw [writePixels_cons, pixelStep_eq, hc]
          simp only [Image.setPixel]
          rw [if_pos hlt]
        rw [ha, hb]
        exact ih _ _ hw (by simp [hlen])
      · have ha : writePixels noise scale octaves persistence (t :: rest) a =
            .error Fault.outOfBounds := by
          rw [writePixels_cons, pixelStep_eq, hc]
          simp only [Image.setPixel]
          rw [if_neg (by rw [hw, hlen]; exact hlt)]
        have hb : writePixels noise scale octaves persistence (t :: rest) b =
            .error Fault.outOfBounds := by
          rw [writePixels_cons, pixelStep_eq, hc]
          simp only [Image.setPixel]
          rw [if_neg hlt]
        rw [ha, hb]
        exact ⟨fun e1 h => h, fun a1 h => by cases h⟩

end ImageLoop

section ImageResult

variable {α : Type} [LinearOrderedField α] [FloorRing α]

theorem colorValue_ok (noise : PerlinNoise) (scale : α) (octaves : Int) (persistence : α)
    (i j : Nat) (c : Int) (h : colorValue noise scale octaves persistence i j = .ok c) :
    ∃ value : α,
      noise.perlinNoiseOctaves ((i : α) * scale) ((j : α) * scale) octaves persistence =
        .ok value ∧
      truncToInt (value * 255) = .ok c := by
  unfold colorValue at h
  cases hv : noise.perlinNoiseOctaves ((i : α) * scale) ((j : α) * scale) octaves persistence with
  | error e => rw [hv] at h; cases h
  | ok v =>
    rw [hv] at h
    exact ⟨v, rfl, h⟩

theorem colorValue_of (noise : PerlinNoise) (scale : α) (octaves : Int) (persistence : α)
    (i j : Nat) (value : α) (c : Int)
    (hv : noise.perlinNoiseOctaves ((i : α) * scale) ((j : α) * scale) octaves persistence =
      .ok value)
    (hc : truncToInt (value * 255) = .ok c) :
    colorValue noise scale octaves persistence i j = .ok c := by
  unfold colorValue
  rw [hv]
  exact hc

/-- After a completed run over the whole grid of a well-formed image, every
stored pixel is the grey pixel of its position. -/
theorem grid_pixels (noise : PerlinNoise) (scale : α) (octaves : Int) (persistence : α)
    (image img1 : Image) (hwf : image.WellFormed)
    (h : writePixels noise scale octaves persistence (gridOrder image.width image.height) image =
      .ok img1) :
    img1.width = image.width ∧ img1.height = image.height ∧
    img1.pixels.length = image.width * image.height ∧
    ∀ i j, i < image.width → j < image.height →
      ∃ c : Int, colorValue noise scale octaves persistence i j = .ok c ∧
        img1.pixels[i + j * image.width]? = some (greyColor c) := by
  obtain ⟨r1, r2, r3, r4, _⟩ := writePixels_result noise scale octaves persistence image.width
    (gridOrder image.width image.height) image img1 (gridOrder_nodup _ _)
    (fun t ht => ((mem_gridOrder _ _ t).1 ht).1) rfl h
  refine ⟨r1, r2, by rw [r3]; exact hwf, fun i j hi hj => ?_⟩
  obtain ⟨c, hc, _, hp⟩ := r4 (i, j) ((mem_gridOrder _ _ (i, j)).2 ⟨hi, hj⟩)
  exact ⟨c, hc, hp⟩

/-- Two well-formed images of the same size give the same outcome. -/
theorem generateNoiseImage_same (noise : PerlinNoise) (scale : α) (octaves : Int)
    (persistence : α) (a b : Image) (ha : a.WellFormed) (hb : b.WellFormed)
    (hw : b.width = a.width) (hh : b.height = a.height) :
    generateNoiseImage b noise scale octaves persistence =
      generateNoiseImage a noise scale octaves persistence := by
  rw [generateNoiseImage_eq_writePixels, generateNoiseImage_eq_writePixels, hw, hh]
  have hlen : a.pixels.length = b.pixels.length := by
    rw [ha, hb, hw, hh]
  obtain ⟨hE, hO⟩ := writePixels_same_outcome noise scale octaves persistence
    (gridOrder a.width a.height) a b hw.symm hlen
  cases hra : writePixels noise scale octaves persistence (gridOrder a.width a.height) a with
  | error e => exact hE e hra
  | ok a1 =>
    obtain ⟨b1, hrb⟩ := hO a1 hra
    rw [hrb]
    have hb' : writePixels noise scale octaves persistence (gridOrder b.width b.height) b =
        .ok b1 := by rw [hw, hh]; exact hrb
    obtain ⟨a_w, a_h, a_len, a_px⟩ := grid_pixels noise scale octaves persistence a a1 ha hra
    obtain ⟨b_w, b_h, b_len, b_px⟩ := grid_pixels noise scale octaves persistence b b1 hb hb'
    simp only [hw, hh] at b_w b_h b_len b_px
    have hpix : b1.pixels = a1.pixels := by
      apply List.ext_getElem?
      intro k
      by_cases hk : k < a.width * a.height
      · have hwpos : 0 < a.width := by
          rcases Nat.eq_zero_or_pos a.width with h0 | h0
          · rw [h0, Nat.zero_mul] at hk; omega
          · exact h0
        have hi : k % a.width < a.width := Nat.mod_lt _ hwpos
        have hj : k / a.width < a.height := Nat.div_lt_of_lt_mul hk
        have hkk : k % a.width + k / a.width * a.width = k := Nat.mod_add_div' k a.width
        obtain ⟨c1, hc1, hp1⟩ := a_px _ _ hi hj
        obtain ⟨c2, hc2, hp2⟩ := b_px _ _ hi hj
        rw [hkk] at hp1 hp2
        rw [hc1] at hc2
        cases hc2
        rw [hp1, hp2]
      · rw [List.getElem?_eq_none (by omega), List.getElem?_eq_none (by omega)]
    have e : b1 = a1 := by
      cases a1
      cases b1
      simp only at a_w b_w a_h b_h hpix
      simp only [Image.mk.injEq]
      exact ⟨b_w.trans a_w.symm, b_h.trans a_h.symm, hpix⟩
    rw [e]

end ImageResult

section MidGrey

variable {α : Type} [LinearOrderedField α] [FloorRing α]

end MidGrey

section ImageDefined

variable {α : Type} [LinearOrderedField α] [FloorRing α]

/-- Inside the domain the colour value of a pixel is defined. -/
theorem colorValue_defined (noise : PerlinNoise) (hinv : PermInvariant noise.p) (scale : α)
    (octaves : Int) (persistence : α) (i j : Nat) (hs : 0 ≤ scale) (hoct : 1 ≤ octaves)
    (hp : 0 < persistence)
    (hi : (i : α) * scale * 2 ^ (octaves.toNat - 1) < 2147483648)
    (hj : (j : α) * scale * 2 ^ (octaves.toNat - 1) < 2147483648) :
    ∃ c : Int, colorValue noise scale octaves persistence i j = .ok c := by
  have hn : 1 ≤ octaves.toNat := by omega
  have hcast : ((octaves.toNat : Nat) : Int) = octaves := Int.toNat_of_nonneg (by omega)
  obtain ⟨v, hv, hlo, hhi⟩ := perlinNoiseOctaves_range noise hinv ((i : α) * scale)
    ((j : α) * scale) persistence octaves.toNat (mul_nonneg (Nat.cast_nonneg i) hs)
    (mul_nonneg (Nat.cast_nonneg j) hs) hn hp hi hj
  rw [hcast] at hv
  obtain ⟨c, hc, _, _⟩ := truncToInt_range v hlo hhi
  exact ⟨c, colorValue_of noise scale octaves persistence i j v c hv hc⟩

theorem toUint8_lt (c : Int) : toUint8 c < 256 := by
  unfold toUint8
  omega

end ImageDefined

section ImagePixels

variable {α : Type} [LinearOrderedField α] [FloorRing α]

/-- A value returned by the conversion to `int` is the truncation toward zero. -/
theorem toInt_result (z c : Int) (h : PerlinNoise.toInt z = .ok c) :
    c = z ∧ -2147483648 ≤ c ∧ c ≤ 2147483647 := by
  unfold PerlinNoise.toInt at h
  by_cases hr : -2147483648 ≤ z ∧ z ≤ 2147483647
  · rw [if_pos hr] at h
    cases h
    exact ⟨rfl, hr.1, hr.2⟩
  · rw [if_neg hr] at h
    cases h

theorem truncToInt_ok (v : α) (c : Int) (h : truncToInt v = .ok c) :
    c = (if 0 ≤ v then ⌊v⌋ else ⌈v⌉) ∧ -2147483648 ≤ c ∧ c ≤ 2147483647 :=
  toInt_result _ c h

theorem greyColor_eq (c : Int) :
    greyColor c = { r := (c % 256).toNat, g := (c % 256).toNat, b := (c % 256).toNat, a := 255 } :=
  rfl

/-- The value `5/4` computed at the centre of the first cell of `swapTable`. -/
theorem swapTable_centre_octave :
    swapTable.perlinNoiseOctaves (1 / 2 : ℚ) (1 / 2) 1 (3 / 4) = .ok (5 / 4) := by
  rw [perlinNoiseOctaves_one, swapTable_centre]
  refine congrArg Except.ok ?_
  norm_num

theorem truncToInt_five_quarters : truncToInt ((5 / 4 : ℚ) * 255) = .ok 318 := by
  have hpos : (0 : ℚ) ≤ 5 / 4 * 255 := by norm_num
  have hf : ⌊(5 / 4 : ℚ) * 255⌋ = 318 := by
    rw [Int.floor_eq_iff]
    constructor <;> norm_num
  unfold truncToInt PerlinNoise.toInt
  rw [if_pos hpos, hf]
  rfl

end ImagePixels

/-- C11: for every well-formed image, engine, scale, octaves and persistence,
when `generateNoiseImage` completes the image keeps its size and every pixel
`(i, j)` of the grid holds the same value in its red, green and blue channels,
namely `c mod 256` where `c` is
`static_cast<int>(perlinNoiseOctaves (i scale) (j scale) octaves persistence * 255)`,
the truncation toward zero; it does complete on a table with the permutation
invariant for `scale ≥ 0`, `octaves ≥ 1`, `persistence > 0` and sample points inside
the `int` range; and the outcome is the same for every well-formed image of the
same size: it depends only on the size, the parameters and the engine's table. -/
theorem generateNoiseImage_grey_grid {α : Type} [LinearOrderedField α] [FloorRing α]
    (image : Image) (noise : PerlinNoise) (scale : α) (octaves : Int) (persistence : α)
    (hwf : image.WellFormed) :
    (∀ img1, generateNoiseImage image noise scale octaves persistence = .ok img1 →
      img1.width = image.width ∧ img1.height = image.height ∧ img1.WellFormed ∧
      ∀ i j, i < image.width → j < image.height →
        ∃ (value : α) (c : Int),
          noise.perlinNoiseOctaves ((i : α) * scale) ((j : α) * scale) octaves persistence =
            .ok value ∧
          c = (if 0 ≤ value * 255 then ⌊value * 255⌋ else ⌈value * 255⌉) ∧
          (0 ≤ c % 256 ∧ c % 256 < 256) ∧
          img1.pixelAt i j =
            some { r := (c % 256).toNat, g := (c % 256).toNat, b := (c % 256).toNat, a := 255 }) ∧
    (PermInvariant noise.p → 0 ≤ scale → 1 ≤ octaves → 0 < persistence →
      (∀ i, i < image.width ∨ i < image.height →
        (i : α) * scale * 2 ^ (octaves.toNat - 1) < 2147483648) →
      ∃ img1, generateNoiseImage image noise scale octaves persistence = .ok img1) ∧
    (∀ image2 : Image, image2.WellFormed → image2.width = image.width →
      image2.height = image.height →
      generateNoiseImage image2 noise scale octaves persistence =
        generateNoiseImage image noise scale octaves persistence) := by
  refine ⟨?_, ?_, fun image2 hwf2 hw hh =>
    generateNoiseImage_same noise scale octaves persistence image image2 hwf hwf2 hw hh⟩
  · intro img1 h
    rw [generateNoiseImage_eq_writePixels] at h
    obtain ⟨r1, r2, r3, r4⟩ := grid_pixels noise scale octaves persistence image img1 hwf h
    refine ⟨r1, r2, by unfold Image.WellFormed; rw [r3, r1, r2], fun i j hi hj => ?_⟩
    obtain ⟨c, hc, hpx⟩ := r4 i j hi hj
    obtain ⟨value, hv, ht⟩ := colorValue_ok noise scale octaves persistence i j c hc
    refine ⟨value, c, hv, (truncToInt_ok _ c ht).1, ⟨by omega, by omega⟩, ?_⟩
    unfold Image.pixelAt
    rw [r1, hpx, greyColor_eq]
  · intro hinv hs hoct hp hr
    rw [generateNoiseImage_eq_writePixels]
    exact writePixels_defined noise scale octaves persistence _ image
      (fun t ht => colorValue_defined noise hinv scale octaves persistence t.1 t.2 hs hoct hp
        (hr _ (Or.inl ((mem_gridOrder _ _ t).1 ht).1))
        (hr _ (Or.inr ((mem_gridOrder _ _ t).1 ht).2)))
      (fun t ht => by
        rw [hwf]
        exact offset_lt _ _ t ((mem_gridOrder _ _ t).1 ht).1 ((mem_gridOrder _ _ t).1 ht).2)

/-- Witness for C11: a black 2 by 3 image, the table `swapTable`, `scale = 1/2`,
one octave and persistence `3/4`: the run completes, and the pixel `(1, 1)`,
whose colour value is `static_cast<int>(1.25 * 255) = 318`, holds `318 mod 256 = 62`
in its three channels. -/
theorem generateNoiseImage_grey_grid_witness :
    (blackImage 2 3).WellFormed ∧
    ∃ img1, generateNoiseImage (blackImage 2 3) swapTable (1 / 2 : ℚ) 1 (3 / 4) = .ok img1 ∧
      img1.pixelAt 1 1 = some { r := 62, g := 62, b := 62, a := 255 } := by
  have hwf : (blackImage 2 3).WellFormed := by
    unfold Image.WellFormed blackImage
    simp
  have hthm := generateNoiseImage_grey_grid (blackImage 2 3) swapTable (1 / 2 : ℚ) 1 (3 / 4) hwf
  have hrange : ∀ i, i < (blackImage 2 3).width ∨ i < (blackImage 2 3).height →
      (i : ℚ) * (1 / 2) * 2 ^ ((1 : Int).toNat - 1) < 2147483648 := by
    intro i hi
    have hi3 : i < 3 := by
      have h2 : (blackImage 2 3).width = 2 := rfl
      have h3 : (blackImage 2 3).height = 3 := rfl
      rw [h2, h3] at hi
      omega
    have e : (1 : Int).toNat - 1 = 0 := rfl
    rw [e, pow_zero, mul_one]
    have hi' : (i : ℚ) < 3 := by exact_mod_cast hi3
    linarith
  obtain ⟨img1, h1⟩ := hthm.2.1 (construct_invariant _ _) (by norm_num) (by norm_num)
    (by norm_num) hrange
  refine ⟨hwf, img1, h1, ?_⟩
  obtain ⟨value, c, hv, hc, _, hpx⟩ := (hthm.1 img1 h1).2.2.2 1 1 (by decide) (by decide)
  have e1 : ((1 : Nat) : ℚ) * (1 / 2) = 1 / 2 := by norm_num
  rw [e1, swapTable_centre_octave] at hv
  cases hv
  have hf : ⌊(5 / 4 : ℚ) * 255⌋ = 318 := by
    rw [Int.floor_eq_iff]
    constructor <;> norm_num
  rw [if_pos (by norm_num), hf] at hc
  rw [hpx, hc]
  rfl

section DoubleLoop

variable {α : Type} [LinearOrderedField α] [FloorRing α]

end DoubleLoop

section DoubleResult

variable {α : Type} [LinearOrderedField α] [FloorRing α]

omit [FloorRing α] in
theorem maxDouble_pos : (0 : α) < PerlinNoise.maxDouble := by
  unfold PerlinNoise.maxDouble
  apply mul_pos
  · norm_num
  · exact pow_pos (by norm_num) 971

end DoubleResult

section DoubleRefines

variable {α : Type} [LinearOrderedField α] [FloorRing α]

end DoubleRefines

section DoubleOverflow

variable {α : Type} [LinearOrderedField α] [FloorRing α]

end DoubleOverflow

section MidGreyDouble

variable {α : Type} [LinearOrderedField α] [FloorRing α]

end MidGreyDouble

